import Mathlib

/-! Verification development for the `collision` grid core.

Shallow embedding of `src/grid/sparse_grid.cpp` (class `SparseGrid`) and
`src/grid/grid_spec.cpp` (class `GridSpec`).

Conventions of the embedding
* `ndarray<T>` and boost ranges are Lean lists; the lazy range adaptors
  (`irange`, `transformed`, `indexed`, `adjacent_filtered`, `join`, `combine`)
  are the list functions of the same name.
* `key_t` is `Int`; `index_t` is `Nat` for positions and `Int` where the
  source compares against the sentinel `-1`. Index arithmetic is assumed not
  to overflow `index_t`.
* An array read `a[i]` is `a.getD i 0`; the `_checked` variants of the
  SparseGrid methods read with `a[i]?` and return `none` on a read outside
  the array.
* `boost::sort` is library code: it enters as a parameter `BoostSort`
  carrying the contract of `std::sort`; `insertion_sort` is one executable
  inhabitant.
* `real_t` is `Real_t`: exact rationals extended by the infinities and NaN.
  Vectors of dimension `n_dim` are lists.
* `fixed_t` is read twice. `GridSpec` itself computes in exact integers
  (`Int`, no overflow). The `_fixed` definitions are the same code in a signed
  `fixed_t` of `bits` bits: products are reduced modulo `2 ^ bits`, and the
  conversion from `real_t` is defined only where the truncated value is
  representable. The two readings agree wherever the values are representable
  (`compute_strides_fixed_eq_exact`, `cast_fixed_of_range`).
-/

namespace Collision

/-! ## Range adaptors -/

/-- Half-open integer range `irange(first, last)`. -/
def irange (first last : Nat) : List Nat :=
  List.range' first (last - first)

/-- Adaptor `| transformed(f)`. -/
def transformed {α β : Type} (f : α → β) (r : List α) : List β :=
  r.map f

/-- Adaptor `| indexed(start)`: every element is paired with its running
index (`.index()` is the first component, `.value()` the second). -/
def indexed {α : Type} (start : Nat) (r : List α) : List (Nat × α) :=
  r.enumFrom start

/-- Increment of the skip iterator behind `adjacent_filtered`: `prev` is the
input element just before the remaining input; an element is emitted when the
predicate holds between it and its immediate predecessor in the input. -/
def adjacent_filtered.skip {α : Type} (pred : α → α → Bool) : α → List α → List α
  | _, [] => []
  | prev, x :: xs =>
    if pred prev x then x :: adjacent_filtered.skip pred x xs
    else adjacent_filtered.skip pred x xs

/-- Adaptor `| adjacent_filtered(pred)`: the first element always passes. -/
def adjacent_filtered {α : Type} (pred : α → α → Bool) : List α → List α
  | [] => []
  | x :: xs => x :: adjacent_filtered.skip pred x xs

/-- Concatenation `boost::join(a, b)`. -/
def join {α : Type} (a b : List α) : List α :=
  a ++ b

/-- Zipped range `boost::combine(a, b)`. -/
def combine {α β : Type} (a : List α) (b : List β) : List (α × β) :=
  List.zip a b

/-- Algorithm `boost::copy(src, dst.begin())`: the leading `src.length`
slots of `dst` are overwritten. -/
def copy {α : Type} (src dst : List α) : List α :=
  src.take dst.length ++ dst.drop src.length

/-! ## The sort -/

/-- Requirements of the C++ standard on a comparator handed to `std::sort`:
a strict weak ordering. -/
structure StrictWeakOrder (comp : Nat → Nat → Bool) : Prop where
  irrefl : ∀ a, comp a a = false
  trans : ∀ a b c, comp a b = true → comp b c = true → comp a c = true
  incomp_trans : ∀ a b c, comp a b = false → comp b a = false →
    comp b c = false → comp c b = false → comp a c = false ∧ comp c a = false

/-- Contract of `boost::sort(range, comp)` (it forwards to `std::sort`): for a
strict weak ordering the result is a rearrangement of the input in which no
later element compares before an earlier one. Nothing is promised about the
order of equivalent elements. -/
structure BoostSort where
  sort : List Nat → (Nat → Nat → Bool) → List Nat
  perm : ∀ r comp, StrictWeakOrder comp → (sort r comp).Perm r
  sorted : ∀ r comp, StrictWeakOrder comp →
    (sort r comp).Pairwise (fun a b => comp b a = false)

/-! ## HashMap -/

/-- Modelled from the spec: `HashMap<key_t, value_t, index_t>` of `maps.cpp`,
which is not among the sources. It is built from a range of (key, value)
pairs and is "a mapping from a distinct key value to its group index";
"lookup of an absent key yields a sentinel (`-1`) rather than failing". -/
structure HashMap where
  items : List (Int × Int)

/-- Modelled from the spec: `HashMap::operator[]` of `maps.cpp`; the value
stored under `key`, or the sentinel `-1` when `key` is absent. -/
def HashMap.get (m : HashMap) (key : Int) : Int :=
  match m.items.find? (fun kv => kv.1 == key) with
  | some kv => kv.2
  | none => -1

/-! ## SparseGrid -/

/-- Fields of `SparseGrid<key_t, index_t>`. -/
structure SparseGrid where
  keys : List Int
  n_keys : Nat
  permutation : List Nat
  pivots : List Nat
  n_groups : Nat
  group_from_key : HashMap

namespace SparseGrid

/-- The comparator `lex` of `init_permutation`:
`[&](index_t l, index_t r) {return _keys[r] > _keys[l];}`. -/
def lex (self : SparseGrid) (l r : Nat) : Bool :=
  decide (self.keys.getD r 0 > self.keys.getD l 0)

/-- Method `init_permutation(initial_permutation)`: an array of `n_keys`
slots receives the initial permutation and is sorted indirectly by key. -/
def init_permutation (B : BoostSort) (self : SparseGrid)
    (initial_permutation : List Nat) : List Nat :=
  let _permutation := copy initial_permutation (List.replicate self.n_keys 0)
  B.sort _permutation self.lex

/-- Method `init_permutation()`: starts from `irange(0, n_keys)`. -/
def init_permutation_default (B : BoostSort) (self : SparseGrid) : List Nat :=
  self.init_permutation B (irange 0 self.n_keys)

/-- Method `init_pivots()`. -/
def init_pivots (self : SparseGrid) : List Nat :=
  let start :=
    transformed (fun i : Nat × Int => i.1)
      (adjacent_filtered (fun a b : Nat × Int => a.2 != b.2)
        (indexed 0
          (transformed (fun i => self.keys.getD i 0) self.permutation)))
  let cap := [self.n_keys]
  join start cap

/-- Method `key_from_group(g)`. -/
def key_from_group (self : SparseGrid) (g : Nat) : Int :=
  self.keys.getD (self.permutation.getD (self.pivots.getD g 0) 0) 0

/-- Method `unique_keys()`. -/
def unique_keys (self : SparseGrid) : List Int :=
  transformed (fun g => self.key_from_group g) (irange 0 self.n_groups)

/-- Method `indices_from_key(key)`. -/
def indices_from_key (self : SparseGrid) (key : Int) : List Nat :=
  let g : Int := self.group_from_key.get key
  transformed (fun i => self.permutation.getD i 0)
    (if g == -1 then irange 0 0
     else irange (self.pivots.getD g.toNat 0) (self.pivots.getD (g + 1).toNat 0))

/-- Method `indices_from_existing_key(key)`. -/
def indices_from_existing_key (self : SparseGrid) (key : Int) : List Nat :=
  let g : Int := self.group_from_key.get key
  transformed (fun i => self.permutation.getD i 0)
    (irange (self.pivots.getD g.toNat 0) (self.pivots.getD (g + 1).toNat 0))

/-- Member initialisers shared by both constructors after `permutation`:
`pivots`, `n_groups`, `group_from_key`, each reading the fields built so
far. -/
def finish (s1 : SparseGrid) : SparseGrid :=
  let s2 := { s1 with pivots := s1.init_pivots }
  let s3 := { s2 with n_groups := s2.pivots.length - 1 }
  { s3 with
    group_from_key :=
      HashMap.mk (combine s3.unique_keys
        (transformed Int.ofNat (irange 0 s3.n_groups))) }

/-- The fields `keys` and `n_keys`, before the other initialisers ran. -/
def start (keys : List Int) : SparseGrid :=
  { keys := keys, n_keys := keys.length, permutation := [], pivots := [],
    n_groups := 0, group_from_key := HashMap.mk [] }

/-- Constructor `SparseGrid(keys)`. -/
def ofKeys (B : BoostSort) (keys : List Int) : SparseGrid :=
  let s0 := start keys
  finish { s0 with permutation := s0.init_permutation_default B }

/-- Constructor `SparseGrid(keys, permutation)`. -/
def ofKeysHint (B : BoostSort) (keys : List Int) (permutation : List Nat) : SparseGrid :=
  let s0 := start keys
  finish { s0 with permutation := s0.init_permutation B permutation }

end SparseGrid

/-! ## An executable sort meeting the contract -/

/-- Insertion sort under the order "does not compare after". -/
def insertion_sort_fn (r : List Nat) (comp : Nat → Nat → Bool) : List Nat :=
  List.insertionSort (fun a b => comp b a = false) r

/-- Insertion sort as an inhabitant of the sort contract. -/
def insertion_sort : BoostSort where
  sort := insertion_sort_fn
  perm := fun r _ _ => List.perm_insertionSort _ r
  sorted := fun r comp h => by
    haveI : IsTotal Nat (fun a b => comp b a = false) := ⟨fun a b => by
      cases hba : comp b a with
      | false => exact Or.inl rfl
      | true =>
        right
        by_contra hab
        have hab : comp a b = true := by simpa using hab
        have := h.trans a b a hab hba
        simp [h.irrefl a] at this⟩
    haveI : IsTrans Nat (fun a b => comp b a = false) := ⟨fun a b c hab hbc => by
      by_contra hca
      have hca : comp c a = true := by simpa using hca
      cases hab2 : comp a b with
      | true => have := h.trans c a b hca hab2; simp [this] at hbc
      | false =>
        cases hbc2 : comp b c with
        | true => have := h.trans b c a hbc2 hca; simp [this] at hab
        | false =>
          have := (h.incomp_trans a b c hab2 hab hbc2 hbc).2
          simp [this] at hca⟩
    exact List.sorted_insertionSort (fun a b => comp b a = false) r

/-! ## GridSpec -/

/-- Values of `real_t` under exact arithmetic: the rationals, the two
infinities that `compute_bounding_box` starts from, and the NaN that
arithmetic on infinities can produce. -/
inductive Real_t where
  | nan : Real_t
  | neg_inf : Real_t
  | fin (q : ℚ) : Real_t
  | inf : Real_t

namespace Real_t

/-- Comparison `a < b`; false whenever a NaN is involved. -/
def lt : Real_t → Real_t → Bool
  | fin a, fin b => decide (a < b)
  | neg_inf, fin _ => true
  | neg_inf, inf => true
  | fin _, inf => true
  | _, _ => false

/-- Coefficient of the Eigen `a.min(b)`, i.e. `std::min(a, b)`. -/
def min (a b : Real_t) : Real_t :=
  if lt b a then b else a

/-- Coefficient of the Eigen `a.max(b)`, i.e. `std::max(a, b)`. -/
def max (a b : Real_t) : Real_t :=
  if lt a b then b else a

/-- Subtraction `a - b`. -/
def sub : Real_t → Real_t → Real_t
  | fin a, fin b => fin (a - b)
  | fin _, inf => neg_inf
  | fin _, neg_inf => inf
  | inf, fin _ => inf
  | inf, neg_inf => inf
  | neg_inf, fin _ => neg_inf
  | neg_inf, inf => neg_inf
  | _, _ => nan

/-- Division `a / b`. -/
def div : Real_t → Real_t → Real_t
  | fin a, fin b =>
    if b = 0 then (if a = 0 then nan else if 0 < a then inf else neg_inf)
    else fin (a / b)
  | fin _, inf => fin 0
  | fin _, neg_inf => fin 0
  | inf, fin b => if 0 ≤ b then inf else neg_inf
  | neg_inf, fin b => if 0 ≤ b then neg_inf else inf
  | _, _ => nan

/-- Conversion `static_cast<fixed_t>(a)` into exact integers: truncation
toward zero. The conversion of a non-finite value is undefined in C++; it is
0 here. `cast_fixed` is the conversion into a `fixed_t` of given width. -/
def cast : Real_t → Int
  | fin q => if 0 ≤ q then ⌊q⌋ else ⌈q⌉
  | _ => 0

end Real_t

/-- Type `vector_t`: a row of `n_dim` reals. -/
abbrev vector_t := List Real_t

/-- Type `cell_t`: a row of `n_dim` integers of type `fixed_t`. -/
abbrev cell_t := List Int

/-- Type `box_t`: two rows, `row(0)` and `row(1)`. -/
structure box_t where
  row0 : vector_t
  row1 : vector_t

/-- Fields of `GridSpec<real_t, fixed_t, index_t, n_dim>`. -/
structure GridSpec where
  n_dim : Nat
  scale : Real_t
  box : box_t
  shape : cell_t
  strides : cell_t

namespace GridSpec

/-- Static method `compute_strides(shape)`, the products taken in exact
integers. `compute_strides_fixed` takes them in a `fixed_t` of given width. -/
def compute_strides (n_dim : Nat) (shape : cell_t) : cell_t :=
  (irange 1 n_dim).foldl
    (fun strides i => strides.set i (strides.getD (i - 1) 0 * shape.getD (i - 1) 0))
    ((List.replicate n_dim (0 : Int)).set 0 1)

/-- Static method `compute_bounding_box(points)`. -/
def compute_bounding_box (n_dim : Nat) (points : List vector_t) : box_t :=
  points.foldl
    (fun box p =>
      { row0 := List.zipWith Real_t.min box.row0 p,
        row1 := List.zipWith Real_t.max box.row1 p })
    { row0 := List.replicate n_dim Real_t.inf,
      row1 := List.replicate n_dim Real_t.neg_inf }

/-- Method `transform(v)`: `(v - box.row(0)) / scale`. -/
def transform (self : GridSpec) (v : vector_t) : vector_t :=
  (List.zipWith Real_t.sub v self.box.row0).map (fun x => Real_t.div x self.scale)

/-- Method `cell_from_local_position(v)`. -/
def cell_from_local_position (_self : GridSpec) (v : vector_t) : cell_t :=
  v.map Real_t.cast

/-- Method `cell_from_position(v)`. -/
def cell_from_position (self : GridSpec) (v : vector_t) : cell_t :=
  self.cell_from_local_position (self.transform v)

/-- Method `hash_from_cell(cell)`: `(cell * strides).sum()`. -/
def hash_from_cell (self : GridSpec) (cell : cell_t) : Int :=
  (List.zipWith (· * ·) cell self.strides).sum

/-- Method `init_box(position)`. -/
def init_box (self : GridSpec) (position : List vector_t) : box_t :=
  compute_bounding_box self.n_dim position

/-- Method `init_shape()`:
`transform(box.row(1) - box.row(0)).cast<fixed_t>() + 1`. -/
def init_shape (self : GridSpec) : cell_t :=
  ((self.transform (List.zipWith Real_t.sub self.box.row1 self.box.row0)).map
    Real_t.cast).map (· + 1)

/-- Method `init_strides()`. -/
def init_strides (self : GridSpec) : cell_t :=
  compute_strides self.n_dim self.shape

/-- Constructor `GridSpec(position, scale)`; the member initialisers run in
the order `scale`, `box`, `shape`, `strides`. -/
def new (n_dim : Nat) (position : List vector_t) (scale : Real_t) : GridSpec :=
  let s0 : GridSpec :=
    { n_dim := n_dim, scale := scale, box := ⟨[], []⟩, shape := [], strides := [] }
  let s1 := { s0 with box := s0.init_box position }
  let s2 := { s1 with shape := s1.init_shape }
  { s2 with strides := s2.init_strides }

end GridSpec

/-- A point with rational coordinates, as a `vector_t`. -/
def point (p : List ℚ) : vector_t := p.map Real_t.fin


/-! ## SparseGrid with every array read bounds-checked

The same methods once more, with each array read `a[i]` as `a[i]?`: the
result is `none` as soon as a read falls outside its array. -/

namespace SparseGrid

/-- Method `init_permutation(initial_permutation)`, checked: the copy must
fit into the `n_keys` slots, and every entry handed to the sort must be a
valid index of `keys`, since the comparator reads `_keys[l]` and `_keys[r]`
for the entries it is given. -/
def init_permutation_checked (B : BoostSort) (self : SparseGrid)
    (initial_permutation : List Nat) : Option (List Nat) :=
  let _permutation := copy initial_permutation (List.replicate self.n_keys 0)
  if initial_permutation.length ≤ self.n_keys
      ∧ _permutation.all (fun i => decide (i < self.keys.length)) = true then
    some (B.sort _permutation self.lex)
  else none

/-- Method `init_pivots()`, checked. -/
def init_pivots_checked (self : SparseGrid) : Option (List Nat) :=
  (self.permutation.mapM (fun i => self.keys[i]?)).map fun ks =>
    join
      (transformed (fun i : Nat × Int => i.1)
        (adjacent_filtered (fun a b : Nat × Int => a.2 != b.2) (indexed 0 ks)))
      [self.n_keys]

/-- Method `key_from_group(g)`, checked. -/
def key_from_group_checked (self : SparseGrid) (g : Nat) : Option Int :=
  (self.pivots[g]?).bind fun p =>
    (self.permutation[p]?).bind fun i => self.keys[i]?

/-- Method `unique_keys()`, checked. -/
def unique_keys_checked (self : SparseGrid) : Option (List Int) :=
  (irange 0 self.n_groups).mapM fun g => self.key_from_group_checked g

/-- Method `indices_from_key(key)`, checked. -/
def indices_from_key_checked (self : SparseGrid) (key : Int) : Option (List Nat) :=
  let g : Int := self.group_from_key.get key
  if g == -1 then (irange 0 0).mapM fun i => self.permutation[i]?
  else
    (self.pivots[g.toNat]?).bind fun first =>
      (self.pivots[(g + 1).toNat]?).bind fun last =>
        (irange first last).mapM fun i => self.permutation[i]?

/-- Member initialisers after `permutation`, checked. -/
def finish_checked (s1 : SparseGrid) : Option SparseGrid :=
  s1.init_pivots_checked.bind fun pivots =>
    let s2 := { s1 with pivots := pivots }
    let s3 := { s2 with n_groups := s2.pivots.length - 1 }
    s3.unique_keys_checked.map fun unique =>
      { s3 with
        group_from_key :=
          HashMap.mk (combine unique (transformed Int.ofNat (irange 0 s3.n_groups))) }

/-- Constructor `SparseGrid(keys)`, checked. -/
def ofKeys_checked (B : BoostSort) (keys : List Int) : Option SparseGrid :=
  let s0 := start keys
  (s0.init_permutation_checked B (irange 0 s0.n_keys)).bind fun permutation =>
    finish_checked { s0 with permutation := permutation }

end SparseGrid

/-! ## GridSpec in `fixed_t` arithmetic

`fixed_t` as a signed two's-complement integer type of `bits` bits. The
definitions above compute cells and strides in exact integers; the `_fixed`
definitions below are the same code with the products reduced to `fixed_t`
and with the conversion from `real_t` defined only where the truncated value
is representable. -/

/-- Least value of `fixed_t`, `std::numeric_limits<fixed_t>::min()`. -/
def fixed_min (bits : Nat) : Int :=
  -((2 ^ (bits - 1) : Nat) : Int)

/-- Greatest value of `fixed_t`, `std::numeric_limits<fixed_t>::max()`. -/
def fixed_max (bits : Nat) : Int :=
  ((2 ^ (bits - 1) : Nat) : Int) - 1

/-- Reduction of an integer result to `fixed_t`: the value congruent to `x`
modulo `2 ^ bits` that lies between `fixed_min` and `fixed_max`. -/
def fixed_wrap (bits : Nat) (x : Int) : Int :=
  (x + ((2 ^ (bits - 1) : Nat) : Int)) % ((2 ^ bits : Nat) : Int)
    - ((2 ^ (bits - 1) : Nat) : Int)

/-- Conversion `static_cast<fixed_t>(a)` in `fixed_t` of `bits` bits:
truncation toward zero; undefined (`none`) for a non-finite value and for a
value whose truncation is not representable in `fixed_t`. -/
def Real_t.cast_fixed (bits : Nat) : Real_t → Option Int
  | Real_t.fin q =>
    if fixed_min bits ≤ (if 0 ≤ q then ⌊q⌋ else ⌈q⌉)
        ∧ (if 0 ≤ q then ⌊q⌋ else ⌈q⌉) ≤ fixed_max bits then
      some (if 0 ≤ q then ⌊q⌋ else ⌈q⌉)
    else none
  | _ => none

/-- Static method `compute_strides(shape)` with the products taken in
`fixed_t` of `bits` bits. -/
def GridSpec.compute_strides_fixed (bits n_dim : Nat) (shape : cell_t) : cell_t :=
  (irange 1 n_dim).foldl
    (fun strides i =>
      strides.set i (fixed_wrap bits (strides.getD (i - 1) 0 * shape.getD (i - 1) 0)))
    ((List.replicate n_dim (0 : Int)).set 0 (fixed_wrap bits 1))

/-- Method `cell_from_local_position(v)` with the conversion to `fixed_t` of
`bits` bits: defined when the conversion of every coordinate is. -/
def GridSpec.cell_from_local_position_fixed (bits : Nat) (_self : GridSpec)
    (v : vector_t) : Option cell_t :=
  v.mapM (Real_t.cast_fixed bits)

/-! ## Auxiliary notions for the proofs -/

/-- A position of `ks` opens a group: it is the first one, or its value
differs from the value just before it. -/
def isStart (ks : List Int) (i : Nat) : Bool :=
  i == 0 || ks.getD (i - 1) 0 != ks.getD i 0

/-- Closed form of the pivot list of a key sequence: the positions that open
a group, then the length. -/
def pivotsOf (ks : List Int) : List Nat :=
  (List.range ks.length).filter (isStart ks) ++ [ks.length]

/-- The keys read through the permutation, the first stage of the pipeline
in `init_pivots`. -/
def SparseGrid.sorted_keys (self : SparseGrid) : List Int :=
  transformed (fun i => self.keys.getD i 0) self.permutation

/-- State of the fields once `keys`, `n_keys` and a sorted `permutation` of
length `n_keys` are in place, before the remaining initialisers run. -/
structure SparseGrid.Sorted (s : SparseGrid) : Prop where
  n_keys_eq : s.n_keys = s.keys.length
  perm_length : s.permutation.length = s.n_keys
  sorted : s.sorted_keys.Pairwise (· ≤ ·)

/-! ## Lemmas on the range adaptors and on pivot lists -/

theorem skip_enumFrom (l : List Int) : ∀ (s j : Nat) (pv : Int),
    (adjacent_filtered.skip (fun a b : Nat × Int => a.2 != b.2) (j, pv) (l.enumFrom s)).map Prod.fst
      = (List.range' s l.length).filter
          (fun i => (pv :: l).getD (i - s) 0 != l.getD (i - s) 0) := by
  induction l with
  | nil => intro s j pv; simp [adjacent_filtered.skip]
  | cons y ys ih =>
    intro s j pv
    have hcongr : (List.range' (s + 1) ys.length).filter
          (fun i => (pv :: y :: ys).getD (i - s) 0 != (y :: ys).getD (i - s) 0)
        = (List.range' (s + 1) ys.length).filter
          (fun i => (y :: ys).getD (i - (s + 1)) 0 != ys.getD (i - (s + 1)) 0) := by
      apply List.filter_congr
      intro i hi
      rw [List.mem_range'_1] at hi
      obtain ⟨k, hk⟩ : ∃ k, i = s + 1 + k := ⟨i - (s + 1), by omega⟩
      subst hk
      have e1 : s + 1 + k - s = k + 1 := by omega
      have e2 : s + 1 + k - (s + 1) = k := by omega
      rw [e1, e2]
      simp [List.getD_cons_succ]
    simp only [List.enumFrom_cons, adjacent_filtered.skip, List.length_cons, List.range'_succ,
      List.filter_cons, Nat.sub_self, List.getD_cons_zero]
    rw [hcongr, ← ih (s + 1) s y]
    split <;> simp

theorem starts_eq (ks : List Int) :
    (adjacent_filtered (fun a b : Nat × Int => a.2 != b.2) (ks.enumFrom 0)).map Prod.fst
      = (List.range ks.length).filter (isStart ks) := by
  cases ks with
  | nil => simp [adjacent_filtered]
  | cons x xs =>
    rw [List.range_eq_range', List.length_cons, List.range'_succ]
    simp only [List.enumFrom_cons, adjacent_filtered, List.map_cons, skip_enumFrom, Nat.zero_add]
    rw [List.filter_cons_of_pos (by simp [isStart])]
    congr 1
    apply List.filter_congr
    intro i hi
    rw [List.mem_range'_1] at hi
    obtain ⟨k, hk⟩ : ∃ k, i = k + 1 := ⟨i - 1, by omega⟩
    subst hk
    simp [isStart]

theorem increasing_getD {P : List Nat} (h : P.Pairwise (· < ·)) {a b : Nat}
    (hab : a < b) (hb : b < P.length) : P.getD a 0 < P.getD b 0 := by
  rw [List.getD_eq_getElem P 0 (by omega), List.getD_eq_getElem P 0 hb]
  exact List.pairwise_iff_getElem.mp h a b (by omega) hb hab

theorem increasing_getD_le {P : List Nat} (h : P.Pairwise (· < ·)) {a b : Nat}
    (hab : a ≤ b) (hb : b < P.length) : P.getD a 0 ≤ P.getD b 0 := by
  rcases Nat.eq_or_lt_of_le hab with rfl | hlt
  · exact Nat.le_refl _
  · exact Nat.le_of_lt (increasing_getD h hlt hb)

theorem sorted_getD_le {ks : List Int} (h : ks.Pairwise (· ≤ ·)) {a b : Nat}
    (hab : a < b) (hb : b < ks.length) : ks.getD a 0 ≤ ks.getD b 0 := by
  have ha : a < ks.length := by omega
  rw [List.getD_eq_getElem ks 0 ha, List.getD_eq_getElem ks 0 hb]
  exact List.pairwise_iff_getElem.mp h a b ha hb hab

theorem not_mem_between {P : List Nat} (h : P.Pairwise (· < ·)) {g i : Nat}
    (hg : g + 1 < P.length) (h1 : P.getD g 0 < i) (h2 : i < P.getD (g + 1) 0) :
    i ∉ P := by
  intro hi
  obtain ⟨m, hm, rfl⟩ := List.mem_iff_getElem.mp hi
  rw [← List.getD_eq_getElem P 0 hm] at h1 h2
  rcases Nat.lt_or_ge g m with hgm | hgm
  · have := increasing_getD_le h (show g + 1 ≤ m from hgm) hm
    omega
  · have := increasing_getD_le h hgm (by omega : g < P.length)
    omega

theorem exists_group_aux (P : List Nat) (j : Nat) (h0 : P.getD 0 0 ≤ j) :
    ∀ m, j < P.getD m 0 → ∃ g, g < m ∧ P.getD g 0 ≤ j ∧ j < P.getD (g + 1) 0 := by
  intro m
  induction m with
  | zero => intro h; omega
  | succ m ih =>
    intro h
    rcases Nat.lt_or_ge j (P.getD m 0) with hlt | hge
    · obtain ⟨g, hg, hgj⟩ := ih hlt
      exact ⟨g, by omega, hgj⟩
    · exact ⟨m, by omega, hge, h⟩

theorem pivotsOf_pairwise (ks : List Int) : (pivotsOf ks).Pairwise (· < ·) := by
  unfold pivotsOf
  rw [List.pairwise_append]
  refine ⟨?_, List.pairwise_singleton _ _, ?_⟩
  · exact List.Pairwise.sublist (List.filter_sublist _) (List.pairwise_lt_range _)
  · intro a ha b hb
    simp only [List.mem_singleton] at hb
    subst hb
    exact List.mem_range.mp (List.mem_of_mem_filter ha)

theorem pivotsOf_length_pos (ks : List Int) : 0 < (pivotsOf ks).length := by
  simp [pivotsOf]

theorem pivotsOf_head (ks : List Int) : (pivotsOf ks).getD 0 0 = 0 := by
  cases ks with
  | nil => simp [pivotsOf]
  | cons x xs =>
    simp [pivotsOf, List.range_succ_eq_map, isStart]

theorem pivotsOf_last (ks : List Int) :
    (pivotsOf ks).getD ((pivotsOf ks).length - 1) 0 = ks.length := by
  simp [pivotsOf]

theorem pivotsOf_getLast (ks : List Int) : (pivotsOf ks).getLast? = some ks.length := by
  simp [pivotsOf]

theorem pivotsOf_le (ks : List Int) {g : Nat} (hg : g < (pivotsOf ks).length) :
    (pivotsOf ks).getD g 0 ≤ ks.length := by
  have := increasing_getD_le (pivotsOf_pairwise ks) (show g ≤ (pivotsOf ks).length - 1 by omega)
    (by omega)
  rwa [pivotsOf_last] at this

theorem mem_pivotsOf {ks : List Int} {i : Nat} :
    i ∈ pivotsOf ks ↔ (i < ks.length ∧ isStart ks i = true) ∨ i = ks.length := by
  simp [pivotsOf, List.mem_filter]

/-- Inside a group no value changes. -/
theorem pivotsOf_interior (ks : List Int) {g i : Nat} (hg : g + 1 < (pivotsOf ks).length)
    (h1 : (pivotsOf ks).getD g 0 < i) (h2 : i < (pivotsOf ks).getD (g + 1) 0) :
    ks.getD (i - 1) 0 = ks.getD i 0 := by
  have hnot := not_mem_between (pivotsOf_pairwise ks) hg h1 h2
  have hle := pivotsOf_le ks hg
  rw [mem_pivotsOf] at hnot
  push_neg at hnot
  have := hnot.1 (by omega)
  simp only [isStart, Bool.or_eq_true, beq_iff_eq, bne_iff_ne, ne_eq, not_or, not_not] at this
  exact this.2

theorem pivotsOf_const (ks : List Int) {g : Nat} (hg : g + 1 < (pivotsOf ks).length) :
    ∀ i, (pivotsOf ks).getD g 0 ≤ i → i < (pivotsOf ks).getD (g + 1) 0 →
      ks.getD i 0 = ks.getD ((pivotsOf ks).getD g 0) 0 := by
  intro i
  induction i with
  | zero => intro h1 _; have : (pivotsOf ks).getD g 0 = 0 := by omega
            rw [this]
  | succ i ih =>
    intro h1 h2
    rcases Nat.eq_or_lt_of_le h1 with heq | hlt
    · rw [heq]
    · have := pivotsOf_interior ks hg hlt h2
      simp only [Nat.add_sub_cancel] at this
      rw [← this]
      exact ih (by omega) (by omega)

/-- The value changes at every pivot but the first and the cap. -/
theorem pivotsOf_boundary (ks : List Int) {g : Nat} (hg : g + 2 < (pivotsOf ks).length) :
    ks.getD ((pivotsOf ks).getD (g + 1) 0 - 1) 0 ≠ ks.getD ((pivotsOf ks).getD (g + 1) 0) 0 := by
  have hpw := pivotsOf_pairwise ks
  have hlt : (pivotsOf ks).getD g 0 < (pivotsOf ks).getD (g + 1) 0 :=
    increasing_getD hpw (by omega) (by omega)
  have hlt2 : (pivotsOf ks).getD (g + 1) 0 < (pivotsOf ks).getD (g + 2) 0 :=
    increasing_getD hpw (by omega) (by omega)
  have hle := pivotsOf_le ks hg
  have hmem : (pivotsOf ks).getD (g + 1) 0 ∈ pivotsOf ks := by
    rw [List.getD_eq_getElem _ 0 (by omega)]
    exact List.getElem_mem _
  rw [mem_pivotsOf] at hmem
  rcases hmem with ⟨_, hs⟩ | he
  · simp only [isStart, Bool.or_eq_true, beq_iff_eq, bne_iff_ne, ne_eq] at hs
    rcases hs with h0 | hne
    · omega
    · exact hne
  · omega

theorem pivotsOf_strict (ks : List Int) (hs : ks.Pairwise (· ≤ ·)) {g : Nat}
    (hg : g + 2 < (pivotsOf ks).length) :
    ks.getD ((pivotsOf ks).getD g 0) 0 < ks.getD ((pivotsOf ks).getD (g + 1) 0) 0 := by
  have hpw := pivotsOf_pairwise ks
  have hlt : (pivotsOf ks).getD g 0 < (pivotsOf ks).getD (g + 1) 0 :=
    increasing_getD hpw (by omega) (by omega)
  have hlt2 : (pivotsOf ks).getD (g + 1) 0 < (pivotsOf ks).getD (g + 2) 0 :=
    increasing_getD hpw (by omega) (by omega)
  have hle := pivotsOf_le ks hg
  have hne := pivotsOf_boundary ks hg
  have hc := pivotsOf_const ks (show g + 1 < (pivotsOf ks).length by omega)
    ((pivotsOf ks).getD (g + 1) 0 - 1) (by omega) (by omega)
  rw [hc] at hne
  have hle2 : ks.getD ((pivotsOf ks).getD g 0) 0 ≤ ks.getD ((pivotsOf ks).getD (g + 1) 0) 0 :=
    sorted_getD_le hs hlt (by omega)
  omega

theorem pivotsOf_exists_group (ks : List Int) {j : Nat} (hj : j < ks.length) :
    ∃ g, g + 1 < (pivotsOf ks).length ∧ (pivotsOf ks).getD g 0 ≤ j ∧
      j < (pivotsOf ks).getD (g + 1) 0 := by
  have h := exists_group_aux (pivotsOf ks) j (by rw [pivotsOf_head]; omega)
    ((pivotsOf ks).length - 1) (by rw [pivotsOf_last]; exact hj)
  obtain ⟨g, hg, h1, h2⟩ := h
  exact ⟨g, by omega, h1, h2⟩

/-! ## Lemmas on SparseGrid -/

namespace SparseGrid

theorem lex_strictWeakOrder (self : SparseGrid) : StrictWeakOrder self.lex where
  irrefl := fun a => by simp [lex]
  trans := fun a b c h1 h2 => by
    simp only [lex, gt_iff_lt, decide_eq_true_eq] at *
    omega
  incomp_trans := fun a b c h1 h2 h3 h4 => by
    simp only [lex, gt_iff_lt, decide_eq_false_iff_not, not_lt] at *
    constructor <;> omega

theorem copy_same_length {α : Type} (src dst : List α) (h : src.length = dst.length) :
    copy src dst = src := by
  simp [copy, h]

theorem init_permutation_perm (B : BoostSort) (self : SparseGrid) (hint : List Nat)
    (h : hint.length = self.n_keys) : (self.init_permutation B hint).Perm hint := by
  unfold init_permutation
  rw [copy_same_length _ _ (by simp [h])]
  exact B.perm _ _ self.lex_strictWeakOrder

theorem init_permutation_sorted (B : BoostSort) (self : SparseGrid) (hint : List Nat) :
    ((self.init_permutation B hint).map (fun i => self.keys.getD i 0)).Pairwise (· ≤ ·) := by
  unfold init_permutation
  rw [List.pairwise_map]
  refine (B.sorted _ _ self.lex_strictWeakOrder).imp ?_
  intro a b hab
  simpa [lex] using hab

theorem irange_zero (n : Nat) : irange 0 n = List.range n := by
  simp [irange, List.range_eq_range']

theorem init_permutation_default_perm (B : BoostSort) (self : SparseGrid) :
    (self.init_permutation_default B).Perm (List.range self.n_keys) := by
  unfold init_permutation_default
  rw [irange_zero]
  exact init_permutation_perm B self _ (by simp)

theorem init_pivots_eq (self : SparseGrid) (h : self.permutation.length = self.n_keys) :
    self.init_pivots = pivotsOf self.sorted_keys := by
  unfold init_pivots pivotsOf sorted_keys join transformed indexed
  simp only [List.length_map, h]
  rw [← h, ← List.length_map self.permutation (fun i => self.keys.getD i 0), ← starts_eq]

end SparseGrid

theorem HashMap.get_combine (us : List Int) (n : Nat) (h : us.length = n) (k : Int) :
    (k ∉ us ∧ (HashMap.mk (combine us (transformed Int.ofNat (irange 0 n)))).get k = -1) ∨
    (∃ g, g < n ∧ us.getD g 0 = k ∧
      (HashMap.mk (combine us (transformed Int.ofNat (irange 0 n)))).get k = (g : Int)) := by
  unfold HashMap.get
  simp only
  cases hf : List.find? (fun kv : Int × Int => kv.1 == k)
      (combine us (transformed Int.ofNat (irange 0 n))) with
  | none =>
    left
    refine ⟨?_, rfl⟩
    intro hk
    obtain ⟨g, hg, rfl⟩ := List.mem_iff_getElem.mp hk
    rw [List.find?_eq_none] at hf
    have hlen : g < (combine us (transformed Int.ofNat (irange 0 n))).length := by
      simp [combine, transformed, SparseGrid.irange_zero, h]; omega
    have := hf _ (List.getElem_mem hlen)
    simp [combine] at this
  | some kv =>
    right
    have hp := List.find?_some hf
    have hm := List.mem_of_find?_eq_some hf
    obtain ⟨g, hg, hkv⟩ := List.mem_iff_getElem.mp hm
    have hg2 : g < n := by
      simp [combine, transformed, SparseGrid.irange_zero, h] at hg; exact hg
    refine ⟨g, hg2, ?_, ?_⟩
    · rw [List.getD_eq_getElem us 0 (by omega)]
      have : kv.1 = us[g] := by
        rw [← hkv]; simp [combine]
      rw [← this]; simpa using hp
    · rw [← hkv]; simp [combine, transformed, SparseGrid.irange_zero]

namespace SparseGrid

theorem sorted_keys_length (self : SparseGrid) :
    self.sorted_keys.length = self.permutation.length := by
  simp [sorted_keys, transformed]

theorem sorted_keys_getD (self : SparseGrid) {j : Nat} (hj : j < self.permutation.length) :
    self.sorted_keys.getD j 0 = self.keys.getD (self.permutation.getD j 0) 0 := by
  rw [List.getD_eq_getElem _ 0 (by rw [sorted_keys_length]; exact hj),
    List.getD_eq_getElem self.permutation 0 hj]
  simp [sorted_keys, transformed]

theorem finish_keys (s : SparseGrid) : (finish s).keys = s.keys := rfl
theorem finish_n_keys (s : SparseGrid) : (finish s).n_keys = s.n_keys := rfl
theorem finish_permutation (s : SparseGrid) : (finish s).permutation = s.permutation := rfl
theorem finish_pivots (s : SparseGrid) : (finish s).pivots = s.init_pivots := rfl
theorem finish_n_groups (s : SparseGrid) : (finish s).n_groups = s.init_pivots.length - 1 := rfl
theorem finish_sorted_keys (s : SparseGrid) : (finish s).sorted_keys = s.sorted_keys := rfl
theorem finish_unique_keys (s : SparseGrid) :
    (finish s).unique_keys
      = (List.range (s.init_pivots.length - 1)).map
          (fun g => s.keys.getD (s.permutation.getD (s.init_pivots.getD g 0) 0) 0) := by
  simp [unique_keys, transformed, irange_zero, key_from_group, finish]
theorem finish_group_from_key (s : SparseGrid) :
    (finish s).group_from_key
      = HashMap.mk (combine (finish s).unique_keys
          (transformed Int.ofNat (irange 0 (finish s).n_groups))) := rfl

end SparseGrid

theorem pivotsOf_strict_of_lt (ks : List Int) (hs : ks.Pairwise (· ≤ ·)) {a : Nat} :
    ∀ b, a < b → b + 1 < (pivotsOf ks).length →
      ks.getD ((pivotsOf ks).getD a 0) 0 < ks.getD ((pivotsOf ks).getD b 0) 0 := by
  intro b
  induction b with
  | zero => intro h; omega
  | succ b ih =>
    intro hab hb
    have hstep := pivotsOf_strict ks hs (show b + 2 < (pivotsOf ks).length by omega)
    rcases Nat.eq_or_lt_of_le (Nat.lt_succ_iff.mp hab) with rfl | hlt
    · exact hstep
    · exact lt_trans (ih hlt (by omega)) hstep

theorem pivotsOf_lt_length (ks : List Int) {g : Nat} (hg : g + 1 < (pivotsOf ks).length) :
    (pivotsOf ks).getD g 0 < ks.length := by
  have h1 := increasing_getD (pivotsOf_pairwise ks) (show g < g + 1 by omega) hg
  have h2 := pivotsOf_le ks hg
  omega

namespace SparseGrid

theorem Sorted.pivots_eq {s : SparseGrid} (h : Sorted s) :
    (finish s).pivots = pivotsOf s.sorted_keys := by
  rw [finish_pivots, init_pivots_eq s h.perm_length]

theorem Sorted.n_groups_succ {s : SparseGrid} (h : Sorted s) :
    (finish s).n_groups + 1 = (pivotsOf s.sorted_keys).length := by
  rw [finish_n_groups, init_pivots_eq s h.perm_length]
  have := pivotsOf_length_pos s.sorted_keys
  omega

theorem Sorted.key_from_group_eq {s : SparseGrid} (h : Sorted s) {g : Nat}
    (hg : g < (finish s).n_groups) :
    (finish s).key_from_group g
      = s.sorted_keys.getD ((pivotsOf s.sorted_keys).getD g 0) 0 := by
  have hn := h.n_groups_succ
  have hlt := pivotsOf_lt_length s.sorted_keys (show g + 1 < _ by omega)
  rw [sorted_keys_length] at hlt
  rw [sorted_keys_getD s hlt]
  simp only [SparseGrid.key_from_group, h.pivots_eq, finish_keys, finish_permutation]

theorem Sorted.unique_keys_getD {s : SparseGrid} (h : Sorted s) {g : Nat}
    (hg : g < (finish s).n_groups) :
    (finish s).unique_keys.getD g 0
      = s.sorted_keys.getD ((pivotsOf s.sorted_keys).getD g 0) 0 := by
  rw [← h.key_from_group_eq hg]
  rw [List.getD_eq_getElem _ 0 (by simp [unique_keys, transformed, irange_zero]; exact hg)]
  simp [unique_keys, transformed, irange_zero]

theorem unique_keys_length (s : SparseGrid) : s.unique_keys.length = s.n_groups := by
  simp [unique_keys, transformed, irange]

/-- Position `j` of the permutation belongs to group `g`. -/
theorem Sorted.group_of_position {s : SparseGrid} (h : Sorted s) {j : Nat}
    (hj : j < s.n_keys) :
    ∃ g, g < (finish s).n_groups ∧ (finish s).pivots.getD g 0 ≤ j ∧
      j < (finish s).pivots.getD (g + 1) 0 ∧
      (finish s).unique_keys.getD g 0 = s.keys.getD (s.permutation.getD j 0) 0 := by
  have hn := h.n_groups_succ
  have hj2 : j < s.sorted_keys.length := by rw [sorted_keys_length, h.perm_length]; exact hj
  obtain ⟨g, hg, h1, h2⟩ := pivotsOf_exists_group s.sorted_keys hj2
  refine ⟨g, by omega, by rw [h.pivots_eq]; exact h1, by rw [h.pivots_eq]; exact h2, ?_⟩
  rw [h.unique_keys_getD (by omega), ← pivotsOf_const s.sorted_keys hg j h1 h2,
    sorted_keys_getD s (by rw [h.perm_length]; exact hj)]

theorem Sorted.unique_keys_lt {s : SparseGrid} (h : Sorted s) {a b : Nat}
    (hab : a < b) (hb : b < (finish s).n_groups) :
    (finish s).unique_keys.getD a 0 < (finish s).unique_keys.getD b 0 := by
  have hn := h.n_groups_succ
  rw [h.unique_keys_getD (by omega), h.unique_keys_getD hb]
  exact pivotsOf_strict_of_lt s.sorted_keys h.sorted b hab (by omega)

theorem Sorted.unique_keys_inj {s : SparseGrid} (h : Sorted s) {a b : Nat}
    (ha : a < (finish s).n_groups) (hb : b < (finish s).n_groups)
    (he : (finish s).unique_keys.getD a 0 = (finish s).unique_keys.getD b 0) : a = b := by
  rcases Nat.lt_trichotomy a b with hlt | heq | hgt
  · have := h.unique_keys_lt hlt hb; omega
  · exact heq
  · have := h.unique_keys_lt hgt ha; omega

/-- Lookup of a key in the finished map: absent, or the group whose key it
is. -/
theorem Sorted.group_from_key_get {s : SparseGrid} (_h : Sorted s) (k : Int) :
    (k ∉ (finish s).unique_keys ∧ (finish s).group_from_key.get k = -1) ∨
    (∃ g, g < (finish s).n_groups ∧ (finish s).unique_keys.getD g 0 = k ∧
      (finish s).group_from_key.get k = (g : Int)) := by
  rw [finish_group_from_key]
  exact HashMap.get_combine _ _ (unique_keys_length _) k

theorem indices_of_group (G : SparseGrid) (k : Int) (g : Nat)
    (hg : G.group_from_key.get k = (g : Int)) :
    G.indices_from_key k
      = (List.range' (G.pivots.getD g 0) (G.pivots.getD (g + 1) 0 - G.pivots.getD g 0)).map
          (fun i => G.permutation.getD i 0) := by
  unfold indices_from_key
  simp only [hg, transformed, irange]
  have h1 : ((g : Int) == -1) = false := by
    rw [beq_eq_false_iff_ne]; omega
  have h2 : ((g : Int) + 1).toNat = g + 1 := by omega
  simp [h1, h2]

theorem start_sorted (B : BoostSort) (keys : List Int) (hint : List Nat)
    (hlen : hint.length = keys.length) :
    Sorted { start keys with permutation := (start keys).init_permutation B hint } where
  n_keys_eq := rfl
  perm_length := by
    have := (init_permutation_perm B (start keys) hint hlen).length_eq
    simpa [start] using this.trans hlen
  sorted := by
    have := init_permutation_sorted B (start keys) hint
    simpa [sorted_keys, transformed, start] using this

theorem ofKeys_eq (B : BoostSort) (keys : List Int) :
    ofKeys B keys = ofKeysHint B keys (irange 0 keys.length) := rfl

theorem ofKeysHint_permutation (B : BoostSort) (keys : List Int) (hint : List Nat)
    (hlen : hint.length = keys.length) :
    (ofKeysHint B keys hint).permutation.Perm hint :=
  init_permutation_perm B (start keys) hint hlen

theorem ofKeys_permutation (B : BoostSort) (keys : List Int) :
    (ofKeys B keys).permutation.Perm (List.range keys.length) :=
  init_permutation_default_perm B (start keys)

end SparseGrid

namespace SparseGrid

/-- Every position of group `g` carries the key of the group. -/
theorem Sorted.key_in_group {s : SparseGrid} (h : Sorted s) {g j : Nat}
    (hg : g < (finish s).n_groups) (h1 : (finish s).pivots.getD g 0 ≤ j)
    (h2 : j < (finish s).pivots.getD (g + 1) 0) :
    j < s.n_keys ∧
      s.keys.getD (s.permutation.getD j 0) 0 = (finish s).unique_keys.getD g 0 := by
  have hn := h.n_groups_succ
  rw [h.pivots_eq] at h1 h2
  have hle := pivotsOf_le s.sorted_keys (show g + 1 < _ by omega)
  rw [sorted_keys_length, h.perm_length] at hle
  have hj : j < s.n_keys := by omega
  refine ⟨hj, ?_⟩
  rw [h.unique_keys_getD hg, ← pivotsOf_const s.sorted_keys (by omega) j h1 h2,
    sorted_keys_getD s (by rw [h.perm_length]; exact hj)]

theorem Sorted.pivots_lt {s : SparseGrid} (h : Sorted s) {g : Nat}
    (hg : g < (finish s).n_groups) :
    (finish s).pivots.getD g 0 < (finish s).pivots.getD (g + 1) 0 := by
  have hn := h.n_groups_succ
  rw [h.pivots_eq]
  exact increasing_getD (pivotsOf_pairwise _) (by omega) (by omega)

theorem ofKeysHint_decomp (B : BoostSort) (keys : List Int) (hint : List Nat)
    (hlen : hint.length = keys.length) :
    ∃ s, Sorted s ∧ ofKeysHint B keys hint = finish s ∧ s.keys = keys ∧
      s.n_keys = keys.length ∧ s.permutation.Perm hint :=
  ⟨_, start_sorted B keys hint hlen, rfl, rfl, rfl,
    init_permutation_perm B (start keys) hint hlen⟩

theorem ofKeys_decomp (B : BoostSort) (keys : List Int) :
    ∃ s, Sorted s ∧ ofKeys B keys = finish s ∧ s.keys = keys ∧
      s.n_keys = keys.length ∧ s.permutation.Perm (List.range keys.length) := by
  obtain ⟨s, h1, h2, h3, h4, h5⟩ :=
    ofKeysHint_decomp B keys (irange 0 keys.length) (by simp [irange])
  exact ⟨s, h1, h2, h3, h4, by rwa [irange_zero] at h5⟩

/-- In a true permutation every index sits at some position. -/
theorem position_of_index {perm : List Nat} {n : Nat} (hp : perm.Perm (List.range n))
    {i : Nat} (hi : i < n) : ∃ j, j < n ∧ perm.getD j 0 = i := by
  have hmem : i ∈ perm := hp.mem_iff.mpr (List.mem_range.mpr hi)
  obtain ⟨j, hj, hji⟩ := List.mem_iff_getElem.mp hmem
  refine ⟨j, ?_, ?_⟩
  · have := hp.length_eq; simp at this; omega
  · rw [List.getD_eq_getElem perm 0 hj]; exact hji

theorem getD_lt_of_perm {perm : List Nat} {n : Nat} (hp : perm.Perm (List.range n))
    {j : Nat} (hj : j < n) : perm.getD j 0 < n := by
  have hl : j < perm.length := by have := hp.length_eq; simp at this; omega
  rw [List.getD_eq_getElem perm 0 hl]
  exact List.mem_range.mp (hp.mem_iff.mp (List.getElem_mem hl))

theorem getD_inj_of_perm {perm : List Nat} {n : Nat} (hp : perm.Perm (List.range n))
    {a b : Nat} (ha : a < n) (hb : b < n) (h : perm.getD a 0 = perm.getD b 0) : a = b := by
  have hl : perm.length = n := by have := hp.length_eq; simpa using this
  have hnd : perm.Nodup := hp.nodup_iff.mpr (List.nodup_range n)
  have ha2 : a < perm.length := by omega
  have hb2 : b < perm.length := by omega
  rw [List.getD_eq_getElem perm 0 ha2, List.getD_eq_getElem perm 0 hb2] at h
  exact (List.Nodup.getElem_inj_iff hnd).mp h

end SparseGrid

/-! ## Claims on SparseGrid -/

open SparseGrid

/-- C1: in the grid built from `keys` alone, a key `k` that occurs in `keys`
has a non-empty `indices_from_key k`; every index it yields is a valid index
holding `k`; and every index holding `k` is yielded exactly once. -/
theorem C1_indices_from_key_present (B : BoostSort) (keys : List Int) (k : Int)
    (hk : k ∈ keys) :
    (ofKeys B keys).indices_from_key k ≠ [] ∧
    (∀ i ∈ (ofKeys B keys).indices_from_key k, keys[i]? = some k) ∧
    (∀ i, i < keys.length → keys[i]? = some k →
      ((ofKeys B keys).indices_from_key k).count i = 1) := by
  obtain ⟨s, hS, hG, hkeys, hn, hperm⟩ := ofKeys_decomp B keys
  rw [hG]
  rw [← hn] at hperm
  -- the group of `k`
  obtain ⟨i0, hi0, hki0⟩ := List.mem_iff_getElem.mp hk
  obtain ⟨j0, hj0, hji0⟩ := position_of_index hperm (show i0 < s.n_keys by omega)
  obtain ⟨g0, hg0, -, -, hu0⟩ := hS.group_of_position hj0
  have hk0 : (finish s).unique_keys.getD g0 0 = k := by
    rw [hu0, hji0, hkeys, List.getD_eq_getElem keys 0 hi0, hki0]
  have hmem : k ∈ (finish s).unique_keys := by
    have hl : g0 < (finish s).unique_keys.length := by rw [unique_keys_length]; exact hg0
    rw [List.getD_eq_getElem _ 0 hl] at hk0
    rw [← hk0]; exact List.getElem_mem hl
  rcases hS.group_from_key_get k with ⟨habs, -⟩ | ⟨g, hg, hug, hget⟩
  · exact absurd hmem habs
  rw [indices_of_group _ k g hget]
  have hlt := hS.pivots_lt hg
  have hyield : ∀ j, j ∈ List.range' ((finish s).pivots.getD g 0)
      ((finish s).pivots.getD (g + 1) 0 - (finish s).pivots.getD g 0) →
      j < s.n_keys ∧ s.keys.getD (s.permutation.getD j 0) 0 = k := by
    intro j hj
    rw [List.mem_range'_1] at hj
    have := hS.key_in_group hg hj.1 (by omega)
    exact ⟨this.1, this.2.trans hug⟩
  refine ⟨?_, ?_, ?_⟩
  · intro hnil
    have := congrArg List.length hnil
    simp only [List.length_map, List.length_range', List.length_nil] at this
    omega
  · intro i hi
    rw [List.mem_map] at hi
    obtain ⟨j, hj, rfl⟩ := hi
    obtain ⟨hjn, hjk⟩ := hyield j hj
    rw [finish_permutation]
    have hlt2 : s.permutation.getD j 0 < keys.length := by
      rw [← hn]; exact getD_lt_of_perm hperm hjn
    rw [hkeys, List.getD_eq_getElem keys 0 hlt2] at hjk
    rw [List.getElem?_eq_getElem hlt2, hjk]
  · intro i hi hik
    apply List.count_eq_one_of_mem
    · apply List.Nodup.map_on _ (List.nodup_range' _ _)
      intro a ha b hb hab
      rw [finish_permutation] at hab
      exact getD_inj_of_perm hperm (hyield a ha).1 (hyield b hb).1 hab
    · obtain ⟨j, hj, hji⟩ := position_of_index hperm (show i < s.n_keys by omega)
      obtain ⟨g1, hg1, hp1, hp2, hu1⟩ := hS.group_of_position hj
      have hk1 : (finish s).unique_keys.getD g1 0 = k := by
        rw [hu1, hji, hkeys, List.getD_eq_getElem keys 0 hi]
        rw [List.getElem?_eq_getElem hi] at hik
        exact Option.some.inj hik
      have hgg : g1 = g := hS.unique_keys_inj hg1 hg (hk1.trans hug.symm)
      subst hgg
      rw [List.mem_map]
      refine ⟨j, ?_, ?_⟩
      · rw [List.mem_range'_1]; omega
      · rw [finish_permutation]; exact hji

theorem C1_indices_from_key_present_witness :
    (7 : Int) ∈ [5, 7, 5, 7] ∧
    ((ofKeys insertion_sort [5, 7, 5, 7]).indices_from_key 7 ≠ [] ∧
    (∀ i ∈ (ofKeys insertion_sort [5, 7, 5, 7]).indices_from_key 7,
      ([5, 7, 5, 7] : List Int)[i]? = some 7) ∧
    (∀ i, i < ([5, 7, 5, 7] : List Int).length → ([5, 7, 5, 7] : List Int)[i]? = some 7 →
      ((ofKeys insertion_sort [5, 7, 5, 7]).indices_from_key 7).count i = 1)) :=
  ⟨by decide, C1_indices_from_key_present insertion_sort [5, 7, 5, 7] 7 (by decide)⟩

/-- C2: for a key `k` that does not occur in `keys`, the `group_from_key`
lookup gives the sentinel `-1` and `indices_from_key k` is empty. -/
theorem C2_absent_key (B : BoostSort) (keys : List Int) (k : Int) (hk : k ∉ keys) :
    (ofKeys B keys).group_from_key.get k = -1 ∧
    (ofKeys B keys).indices_from_key k = [] := by
  obtain ⟨s, hS, hG, hkeys, hn, hperm⟩ := ofKeys_decomp B keys
  rw [hG]
  rw [← hn] at hperm
  have hget : (finish s).group_from_key.get k = -1 := by
    rcases hS.group_from_key_get k with ⟨-, h⟩ | ⟨g, hg, hug, -⟩
    · exact h
    · exfalso
      apply hk
      have hlt := hS.pivots_lt hg
      obtain ⟨hjn, hjk⟩ := hS.key_in_group hg (Nat.le_refl _) hlt
      rw [hug, hkeys] at hjk
      have hlt2 : s.permutation.getD ((finish s).pivots.getD g 0) 0 < keys.length := by
        rw [← hn]; exact getD_lt_of_perm hperm hjn
      rw [List.getD_eq_getElem keys 0 hlt2] at hjk
      rw [← hjk]; exact List.getElem_mem hlt2
  refine ⟨hget, ?_⟩
  simp [indices_from_key, hget, transformed, irange]

theorem C2_absent_key_witness :
    (99 : Int) ∉ [0, 0, 7, 35] ∧
    ((ofKeys insertion_sort [0, 0, 7, 35]).group_from_key.get 99 = -1 ∧
    (ofKeys insertion_sort [0, 0, 7, 35]).indices_from_key 99 = []) :=
  ⟨by decide, C2_absent_key insertion_sort [0, 0, 7, 35] 99 (by decide)⟩


/-- C3: the `permutation` computed by the keys-only constructor has length
`n_keys` and contains every index of `[0, n_keys)` exactly once (and nothing
else). -/
theorem C3_permutation_is_permutation (B : BoostSort) (keys : List Int) :
    (ofKeys B keys).n_keys = keys.length ∧
    (ofKeys B keys).permutation.length = keys.length ∧
    (∀ i, i < keys.length → (ofKeys B keys).permutation.count i = 1) ∧
    (∀ i ∈ (ofKeys B keys).permutation, i < keys.length) := by
  have hp := ofKeys_permutation B keys
  refine ⟨rfl, by simpa using hp.length_eq, ?_, ?_⟩
  · intro i hi
    rw [hp.count_eq]
    exact List.count_eq_one_of_mem (List.nodup_range _) (List.mem_range.mpr hi)
  · intro i hi
    exact List.mem_range.mp (hp.mem_iff.mp hi)

/-- Sortedness of the permutation produced from any hint of matching
length. -/
theorem ofKeysHint_adjacent (B : BoostSort) (keys : List Int) (hint : List Nat)
    (hlen : hint.length = keys.length) (i : Nat) (hi : i + 1 < keys.length) :
    keys.getD ((ofKeysHint B keys hint).permutation.getD i 0) 0
      ≤ keys.getD ((ofKeysHint B keys hint).permutation.getD (i + 1) 0) 0 := by
  obtain ⟨s, hS, hG, hkeys, hn, -⟩ := ofKeysHint_decomp B keys hint hlen
  rw [hG, finish_permutation, ← hkeys]
  have hl := hS.perm_length
  rw [← sorted_keys_getD s (by omega), ← sorted_keys_getD s (by omega)]
  exact sorted_getD_le hS.sorted (by omega) (by rw [sorted_keys_length]; omega)

/-- C4: whatever hint of length `n_keys` with entries in `[0, n_keys)` is
supplied, the resulting `permutation` (of length `n_keys`, entries in range)
is sorted by key: `keys[permutation[i]] <= keys[permutation[i+1]]` whenever
`i + 1 < n_keys`; the same holds for the keys-only constructor. -/
theorem C4_permutation_sorted (B : BoostSort) (keys : List Int) (hint : List Nat)
    (hlen : hint.length = keys.length) (hidx : ∀ x ∈ hint, x < keys.length) :
    ((ofKeysHint B keys hint).permutation.length = keys.length ∧
      (∀ x ∈ (ofKeysHint B keys hint).permutation, x < keys.length) ∧
      ∀ i, i + 1 < keys.length →
        keys.getD ((ofKeysHint B keys hint).permutation.getD i 0) 0
          ≤ keys.getD ((ofKeysHint B keys hint).permutation.getD (i + 1) 0) 0) ∧
    ((ofKeys B keys).permutation.length = keys.length ∧
      (∀ x ∈ (ofKeys B keys).permutation, x < keys.length) ∧
      ∀ i, i + 1 < keys.length →
        keys.getD ((ofKeys B keys).permutation.getD i 0) 0
          ≤ keys.getD ((ofKeys B keys).permutation.getD (i + 1) 0) 0) := by
  have hp := ofKeysHint_permutation B keys hint hlen
  have hq := ofKeys_permutation B keys
  refine ⟨⟨hp.length_eq.trans hlen, fun x hx => hidx x (hp.mem_iff.mp hx), ?_⟩,
    ⟨by simpa using hq.length_eq, fun x hx => List.mem_range.mp (hq.mem_iff.mp hx), ?_⟩⟩
  · exact fun i hi => ofKeysHint_adjacent B keys hint hlen i hi
  · intro i hi
    rw [ofKeys_eq]
    exact ofKeysHint_adjacent B keys _ (by simp [irange]) i hi

theorem C4_permutation_sorted_witness :
    ([3, 3, 0, 1] : List Nat).length = ([9, 2, 9, 4] : List Int).length ∧
    (∀ x ∈ ([3, 3, 0, 1] : List Nat), x < ([9, 2, 9, 4] : List Int).length) ∧
    (((ofKeysHint insertion_sort [9, 2, 9, 4] [3, 3, 0, 1]).permutation.length
        = ([9, 2, 9, 4] : List Int).length ∧
      (∀ x ∈ (ofKeysHint insertion_sort [9, 2, 9, 4] [3, 3, 0, 1]).permutation,
        x < ([9, 2, 9, 4] : List Int).length) ∧
      ∀ i, i + 1 < ([9, 2, 9, 4] : List Int).length →
        ([9, 2, 9, 4] : List Int).getD
            ((ofKeysHint insertion_sort [9, 2, 9, 4] [3, 3, 0, 1]).permutation.getD i 0) 0
          ≤ ([9, 2, 9, 4] : List Int).getD
            ((ofKeysHint insertion_sort [9, 2, 9, 4] [3, 3, 0, 1]).permutation.getD (i + 1) 0) 0) ∧
    ((ofKeys insertion_sort [9, 2, 9, 4]).permutation.length
        = ([9, 2, 9, 4] : List Int).length ∧
      (∀ x ∈ (ofKeys insertion_sort [9, 2, 9, 4]).permutation,
        x < ([9, 2, 9, 4] : List Int).length) ∧
      ∀ i, i + 1 < ([9, 2, 9, 4] : List Int).length →
        ([9, 2, 9, 4] : List Int).getD
            ((ofKeys insertion_sort [9, 2, 9, 4]).permutation.getD i 0) 0
          ≤ ([9, 2, 9, 4] : List Int).getD
            ((ofKeys insertion_sort [9, 2, 9, 4]).permutation.getD (i + 1) 0) 0)) :=
  ⟨by decide, by decide,
    C4_permutation_sorted insertion_sort [9, 2, 9, 4] [3, 3, 0, 1] (by decide) (by decide)⟩

/-- C5: for every key array, the empty one included, the pivots of the
keys-only grid satisfy `len(pivots) = n_groups + 1`, `pivots[0] = 0`, the last
pivot is `n_keys`, and `pivots` is strictly increasing. -/
theorem C5_pivots_shape (B : BoostSort) (keys : List Int) :
    (ofKeys B keys).pivots.length = (ofKeys B keys).n_groups + 1 ∧
    (ofKeys B keys).pivots[0]? = some 0 ∧
    (ofKeys B keys).pivots.getLast? = some (ofKeys B keys).n_keys ∧
    (ofKeys B keys).n_keys = keys.length ∧
    (ofKeys B keys).pivots.Pairwise (· < ·) := by
  obtain ⟨s, hS, hG, hkeys, hn, hperm⟩ := ofKeys_decomp B keys
  rw [hG, hS.pivots_eq, finish_n_keys]
  have hpos := pivotsOf_length_pos s.sorted_keys
  refine ⟨hS.n_groups_succ.symm, ?_, ?_, hn, pivotsOf_pairwise _⟩
  · rw [List.getElem?_eq_getElem hpos, ← List.getD_eq_getElem _ 0 hpos, pivotsOf_head]
  · rw [pivotsOf_getLast, sorted_keys_length, hS.perm_length]

/-- C6: inside a group all keys read through the permutation are equal, and
they are strictly below every key of the next group. -/
theorem C6_groups_constant_and_increasing (B : BoostSort) (keys : List Int) (g : Nat)
    (hg : g < (ofKeys B keys).n_groups) :
    (∀ i j, (ofKeys B keys).pivots.getD g 0 ≤ i → i < (ofKeys B keys).pivots.getD (g + 1) 0 →
        (ofKeys B keys).pivots.getD g 0 ≤ j → j < (ofKeys B keys).pivots.getD (g + 1) 0 →
        keys.getD ((ofKeys B keys).permutation.getD i 0) 0
          = keys.getD ((ofKeys B keys).permutation.getD j 0) 0) ∧
    (g + 1 < (ofKeys B keys).n_groups →
      ∀ i j, (ofKeys B keys).pivots.getD g 0 ≤ i → i < (ofKeys B keys).pivots.getD (g + 1) 0 →
        (ofKeys B keys).pivots.getD (g + 1) 0 ≤ j →
        j < (ofKeys B keys).pivots.getD (g + 2) 0 →
        keys.getD ((ofKeys B keys).permutation.getD i 0) 0
          < keys.getD ((ofKeys B keys).permutation.getD j 0) 0) := by
  obtain ⟨s, hS, hG, hkeys, hn, hperm⟩ := ofKeys_decomp B keys
  rw [hG] at hg ⊢
  simp only [finish_permutation, ← hkeys]
  constructor
  · intro i j hi1 hi2 hj1 hj2
    rw [(hS.key_in_group hg hi1 hi2).2, (hS.key_in_group hg hj1 hj2).2]
  · intro hg1 i j hi1 hi2 hj1 hj2
    rw [(hS.key_in_group hg hi1 hi2).2, (hS.key_in_group hg1 hj1 hj2).2]
    exact hS.unique_keys_lt (by omega) hg1

theorem C6_groups_constant_and_increasing_witness :
    0 < (ofKeys insertion_sort [5, 7, 5, 7]).n_groups ∧
    ((∀ i j, (ofKeys insertion_sort [5, 7, 5, 7]).pivots.getD 0 0 ≤ i →
        i < (ofKeys insertion_sort [5, 7, 5, 7]).pivots.getD (0 + 1) 0 →
        (ofKeys insertion_sort [5, 7, 5, 7]).pivots.getD 0 0 ≤ j →
        j < (ofKeys insertion_sort [5, 7, 5, 7]).pivots.getD (0 + 1) 0 →
        ([5, 7, 5, 7] : List Int).getD
            ((ofKeys insertion_sort [5, 7, 5, 7]).permutation.getD i 0) 0
          = ([5, 7, 5, 7] : List Int).getD
            ((ofKeys insertion_sort [5, 7, 5, 7]).permutation.getD j 0) 0) ∧
    (0 + 1 < (ofKeys insertion_sort [5, 7, 5, 7]).n_groups →
      ∀ i j, (ofKeys insertion_sort [5, 7, 5, 7]).pivots.getD 0 0 ≤ i →
        i < (ofKeys insertion_sort [5, 7, 5, 7]).pivots.getD (0 + 1) 0 →
        (ofKeys insertion_sort [5, 7, 5, 7]).pivots.getD (0 + 1) 0 ≤ j →
        j < (ofKeys insertion_sort [5, 7, 5, 7]).pivots.getD (0 + 2) 0 →
        ([5, 7, 5, 7] : List Int).getD
            ((ofKeys insertion_sort [5, 7, 5, 7]).permutation.getD i 0) 0
          < ([5, 7, 5, 7] : List Int).getD
            ((ofKeys insertion_sort [5, 7, 5, 7]).permutation.getD j 0) 0)) :=
  ⟨by decide, C6_groups_constant_and_increasing insertion_sort [5, 7, 5, 7] 0 (by decide)⟩

/-- C7: `unique_keys()` yields exactly `n_groups` values, in strictly
ascending order, and a value is yielded exactly when it occurs in `keys`. -/
theorem C7_unique_keys (B : BoostSort) (keys : List Int) :
    (ofKeys B keys).unique_keys.length = (ofKeys B keys).n_groups ∧
    (ofKeys B keys).unique_keys.Pairwise (· < ·) ∧
    (∀ k, k ∈ (ofKeys B keys).unique_keys ↔ k ∈ keys) := by
  obtain ⟨s, hS, hG, hkeys, hn, hperm⟩ := ofKeys_decomp B keys
  rw [hG]
  rw [← hn] at hperm
  have hlen := unique_keys_length (finish s)
  refine ⟨hlen, ?_, ?_⟩
  · rw [List.pairwise_iff_getElem]
    intro a b ha hb hab
    rw [← List.getD_eq_getElem _ 0 ha, ← List.getD_eq_getElem _ 0 hb]
    exact hS.unique_keys_lt hab (by omega)
  · intro k
    constructor
    · intro hk
      obtain ⟨g, hg, rfl⟩ := List.mem_iff_getElem.mp hk
      rw [hlen] at hg
      have hlt := hS.pivots_lt hg
      obtain ⟨hjn, hjk⟩ := hS.key_in_group hg (Nat.le_refl _) hlt
      have hlt2 : s.permutation.getD ((finish s).pivots.getD g 0) 0 < keys.length := by
        rw [← hn]; exact getD_lt_of_perm hperm hjn
      rw [← List.getD_eq_getElem _ 0 (by omega), ← hjk, hkeys, List.getD_eq_getElem keys 0 hlt2]
      exact List.getElem_mem hlt2
    · intro hk
      obtain ⟨i, hi, rfl⟩ := List.mem_iff_getElem.mp hk
      obtain ⟨j, hj, hji⟩ := position_of_index hperm (show i < s.n_keys by omega)
      obtain ⟨g, hg, -, -, hu⟩ := hS.group_of_position hj
      rw [hji, hkeys, List.getD_eq_getElem keys 0 hi] at hu
      rw [← hu, List.getD_eq_getElem _ 0 (by omega)]
      exact List.getElem_mem _


/-! ## Lemmas on GridSpec -/

namespace Real_t

theorem min_inf_fin (a : ℚ) : min inf (fin a) = fin a := by simp [min, lt]

theorem max_neg_inf_fin (a : ℚ) : max neg_inf (fin a) = fin a := by simp [max, lt]

theorem min_fin_fin (a b : ℚ) : min (fin a) (fin b) = fin (Min.min a b) := by
  simp only [min, lt, decide_eq_true_eq]
  split
  · rw [min_eq_right (le_of_lt ‹b < a›)]
  · rw [min_eq_left (not_lt.mp ‹¬ b < a›)]

theorem max_fin_fin (a b : ℚ) : max (fin a) (fin b) = fin (Max.max a b) := by
  simp only [max, lt, decide_eq_true_eq]
  split
  · rw [max_eq_right (le_of_lt ‹a < b›)]
  · rw [max_eq_left (not_lt.mp ‹¬ a < b›)]

theorem sub_fin_fin (a b : ℚ) : sub (fin a) (fin b) = fin (a - b) := rfl

theorem div_fin_fin (a b : ℚ) (hb : b ≠ 0) : div (fin a) (fin b) = fin (a / b) := by
  simp [div, hb]

end Real_t

namespace GridSpec

theorem new_box (n_dim : Nat) (position : List vector_t) (scale : Real_t) :
    (GridSpec.new n_dim position scale).box = compute_bounding_box n_dim position := rfl

theorem new_scale (n_dim : Nat) (position : List vector_t) (scale : Real_t) :
    (GridSpec.new n_dim position scale).scale = scale := rfl

theorem new_shape (n_dim : Nat) (position : List vector_t) (scale : Real_t) :
    (GridSpec.new n_dim position scale).shape
      = ((List.zipWith Real_t.sub
            (List.zipWith Real_t.sub (compute_bounding_box n_dim position).row1
              (compute_bounding_box n_dim position).row0)
            (compute_bounding_box n_dim position).row0).map
          (fun x => Real_t.cast (Real_t.div x scale))).map (· + 1) := by
  simp [GridSpec.new, init_shape, transform, init_box]

theorem new_strides (n_dim : Nat) (position : List vector_t) (scale : Real_t) :
    (GridSpec.new n_dim position scale).strides
      = compute_strides n_dim (GridSpec.new n_dim position scale).shape := rfl

theorem new_cell_from_position (n_dim : Nat) (position : List vector_t) (scale : Real_t)
    (v : vector_t) :
    (GridSpec.new n_dim position scale).cell_from_position v
      = (List.zipWith Real_t.sub v (compute_bounding_box n_dim position).row0).map
          (fun x => Real_t.cast (Real_t.div x scale)) := by
  simp [cell_from_position, cell_from_local_position, transform, new_box, new_scale]

end GridSpec

/-! ## Claims on GridSpec -/

/-- C8, evaluated at a failing input: for the two points (3,0) and (1,1)
with scale 1 the constructor computes the box [(1,0),(3,1)], the shape (2,2)
and the strides (1,2); the points fall into the distinct cells (2,0) and
(0,1), and both cells hash to 2. -/
theorem C8_distinct_cells_same_hash :
    (GridSpec.new 2 [point [3, 0], point [1, 1]] (Real_t.fin 1)).box
      = ⟨point [1, 0], point [3, 1]⟩ ∧
    (GridSpec.new 2 [point [3, 0], point [1, 1]] (Real_t.fin 1)).shape = [2, 2] ∧
    (GridSpec.new 2 [point [3, 0], point [1, 1]] (Real_t.fin 1)).strides = [1, 2] ∧
    (GridSpec.new 2 [point [3, 0], point [1, 1]] (Real_t.fin 1)).cell_from_position
      (point [3, 0]) = [2, 0] ∧
    (GridSpec.new 2 [point [3, 0], point [1, 1]] (Real_t.fin 1)).cell_from_position
      (point [1, 1]) = [0, 1] ∧
    (GridSpec.new 2 [point [3, 0], point [1, 1]] (Real_t.fin 1)).hash_from_cell
      ((GridSpec.new 2 [point [3, 0], point [1, 1]] (Real_t.fin 1)).cell_from_position
        (point [3, 0])) = 2 ∧
    (GridSpec.new 2 [point [3, 0], point [1, 1]] (Real_t.fin 1)).hash_from_cell
      ((GridSpec.new 2 [point [3, 0], point [1, 1]] (Real_t.fin 1)).cell_from_position
        (point [1, 1])) = 2 := by
  have hbox : GridSpec.compute_bounding_box 2 [point [3, 0], point [1, 1]]
      = ⟨point [1, 0], point [3, 1]⟩ := by
    simp [GridSpec.compute_bounding_box, point, List.replicate, Real_t.min_inf_fin,
      Real_t.max_neg_inf_fin, Real_t.min_fin_fin, Real_t.max_fin_fin]
  have hshape : (GridSpec.new 2 [point [3, 0], point [1, 1]] (Real_t.fin 1)).shape
      = [2, 2] := by
    rw [GridSpec.new_shape, hbox]
    norm_num [point, Real_t.sub_fin_fin, Real_t.div_fin_fin, Real_t.cast]
  have hstrides : (GridSpec.new 2 [point [3, 0], point [1, 1]] (Real_t.fin 1)).strides
      = [1, 2] := by
    rw [GridSpec.new_strides, hshape]; decide
  have hc1 : (GridSpec.new 2 [point [3, 0], point [1, 1]] (Real_t.fin 1)).cell_from_position
      (point [3, 0]) = [2, 0] := by
    rw [GridSpec.new_cell_from_position, hbox]
    norm_num [point, Real_t.sub_fin_fin, Real_t.div_fin_fin, Real_t.cast]
  have hc2 : (GridSpec.new 2 [point [3, 0], point [1, 1]] (Real_t.fin 1)).cell_from_position
      (point [1, 1]) = [0, 1] := by
    rw [GridSpec.new_cell_from_position, hbox]
    norm_num [point, Real_t.sub_fin_fin, Real_t.div_fin_fin, Real_t.cast]
  refine ⟨hbox, hshape, hstrides, hc1, hc2, ?_, ?_⟩
  · rw [hc1, GridSpec.hash_from_cell, hstrides]; decide
  · rw [hc2, GridSpec.hash_from_cell, hstrides]; decide

/-- C9, evaluated at a failing input: for the points (1,1) and (2,2) with
scale 1 the box is [(1,1),(2,2)], so `floor((box[1][d] - box[0][d]) / scale) + 1`
is 2 on both axes, while the constructor computes the shape (1,1). -/
theorem C9_shape_subtracts_origin_twice :
    (GridSpec.new 2 [point [1, 1], point [2, 2]] (Real_t.fin 1)).box
      = ⟨point [1, 1], point [2, 2]⟩ ∧
    (GridSpec.new 2 [point [1, 1], point [2, 2]] (Real_t.fin 1)).shape = [1, 1] ∧
    ⌊((2 : ℚ) - 1) / 1⌋ + 1 = 2 := by
  have hbox : GridSpec.compute_bounding_box 2 [point [1, 1], point [2, 2]]
      = ⟨point [1, 1], point [2, 2]⟩ := by
    simp [GridSpec.compute_bounding_box, point, List.replicate, Real_t.min_inf_fin,
      Real_t.max_neg_inf_fin, Real_t.min_fin_fin, Real_t.max_fin_fin]
  refine ⟨hbox, ?_, by norm_num⟩
  rw [GridSpec.new_shape, hbox]
  norm_num [point, Real_t.sub_fin_fin, Real_t.div_fin_fin, Real_t.cast]

/-- C10, evaluated at a failing input: for the single point (2,2) with
scale 1 the constructor computes the shape (-1,-1), whose entries are below
1. -/
theorem C10_shape_entry_below_one :
    (GridSpec.new 2 [point [2, 2]] (Real_t.fin 1)).box = ⟨point [2, 2], point [2, 2]⟩ ∧
    (GridSpec.new 2 [point [2, 2]] (Real_t.fin 1)).shape = [-1, -1] := by
  have hbox : GridSpec.compute_bounding_box 2 [point [2, 2]]
      = ⟨point [2, 2], point [2, 2]⟩ := by
    simp [GridSpec.compute_bounding_box, point, List.replicate, Real_t.min_inf_fin,
      Real_t.max_neg_inf_fin]
  refine ⟨hbox, ?_⟩
  rw [GridSpec.new_shape, hbox]
  norm_num [point, Real_t.sub_fin_fin, Real_t.div_fin_fin, Real_t.cast, Int.ceil_neg]

/-! ## Lemmas on strides and hashing -/

theorem getD_set_eq {l : List Int} {i j : Nat} {a : Int} :
    (l.set i a).getD j 0 = if i = j ∧ i < l.length then a else l.getD j 0 := by
  simp only [List.getD_eq_getElem?_getD, List.getElem?_set]
  by_cases hij : i = j
  · by_cases hi : i < l.length
    · subst hij
      simp [hi]
    · subst hij
      simp [hi, List.getElem?_eq_none (not_lt.mp hi)]
  · simp [hij]

namespace GridSpec

/-- The loop of `compute_strides` after the iterations `i = 1, ..., k`. -/
theorem strides_loop (n_dim : Nat) (shape : cell_t) (hlen : shape.length = n_dim) :
    ∀ k, ((List.range' 1 k).foldl
        (fun strides i => strides.set i (strides.getD (i - 1) 0 * shape.getD (i - 1) 0))
        ((List.replicate n_dim (0 : Int)).set 0 1)).length = n_dim ∧
      ∀ d, d ≤ k → d < n_dim →
        ((List.range' 1 k).foldl
          (fun strides i => strides.set i (strides.getD (i - 1) 0 * shape.getD (i - 1) 0))
          ((List.replicate n_dim (0 : Int)).set 0 1)).getD d 0 = (shape.take d).prod := by
  intro k
  induction k with
  | zero =>
    refine ⟨by simp, ?_⟩
    intro d hd hdn
    have hd0 : d = 0 := by omega
    subst hd0
    simp [getD_set_eq, hdn]
  | succ k ih =>
    obtain ⟨ihl, ihv⟩ := ih
    rw [List.range'_concat, List.foldl_append]
    simp only [List.foldl_cons, List.foldl_nil, Nat.one_mul, Nat.add_sub_cancel_left]
    refine ⟨by rw [List.length_set]; exact ihl, ?_⟩
    intro d hd hdn
    rw [getD_set_eq]
    by_cases hdk : 1 + k = d
    · subst hdk
      rw [if_pos ⟨rfl, by omega⟩, ihv k (by omega) (by omega)]
      have hk : k < shape.length := by omega
      rw [show 1 + k = k + 1 by omega, List.prod_take_succ shape k hk,
        List.getD_eq_getElem shape 0 hk]
    · rw [if_neg (fun h => hdk h.1)]
      exact ihv d (by omega) hdn

theorem compute_strides_length (n_dim : Nat) (shape : cell_t) (hlen : shape.length = n_dim) :
    (compute_strides n_dim shape).length = n_dim :=
  (strides_loop n_dim shape hlen (n_dim - 1)).1

theorem compute_strides_getD (n_dim : Nat) (shape : cell_t) (hlen : shape.length = n_dim)
    {d : Nat} (hd : d < n_dim) :
    (compute_strides n_dim shape).getD d 0 = (shape.take d).prod :=
  (strides_loop n_dim shape hlen (n_dim - 1)).2 d (by omega) hd

theorem compute_strides_cons (s : Int) (rest : cell_t) :
    compute_strides (rest.length + 1) (s :: rest)
      = 1 :: (compute_strides rest.length rest).map (fun x => s * x) := by
  apply List.ext_getElem
  · simp [compute_strides_length]
  · intro d h1 h2
    rw [compute_strides_length _ _ (by simp)] at h1
    rw [← List.getD_eq_getElem _ 0, compute_strides_getD _ _ (by simp) h1]
    cases d with
    | zero => simp
    | succ d =>
      have hd : d < rest.length := by omega
      simp only [List.take_succ_cons, List.prod_cons, List.getElem_cons_succ, List.getElem_map]
      rw [← List.getD_eq_getElem _ 0, compute_strides_getD _ _ rfl hd]

theorem hash_cons (c0 s : Int) : ∀ (cs T : List Int),
    (List.zipWith (· * ·) (c0 :: cs) (1 :: T.map (fun x => s * x))).sum
      = c0 + s * (List.zipWith (· * ·) cs T).sum := by
  intro cs
  induction cs with
  | nil => intro T; simp
  | cons c cs ih =>
    intro T
    cases T with
    | nil => simp
    | cons t T =>
      have := ih T
      simp only [List.zipWith_cons_cons, List.sum_cons, List.map_cons, mul_one] at this ⊢
      linarith

/-- Mixed-radix encoding is injective on the cell space. -/
theorem hash_injective : ∀ (shape c c2 : cell_t),
    (∀ s ∈ shape, 1 ≤ s) → c.length = shape.length → c2.length = shape.length →
    (∀ d, d < shape.length → 0 ≤ c.getD d 0 ∧ c.getD d 0 < shape.getD d 0) →
    (∀ d, d < shape.length → 0 ≤ c2.getD d 0 ∧ c2.getD d 0 < shape.getD d 0) →
    (List.zipWith (· * ·) c (compute_strides shape.length shape)).sum
      = (List.zipWith (· * ·) c2 (compute_strides shape.length shape)).sum →
    c = c2 := by
  intro shape
  induction shape with
  | nil =>
    intro c c2 _ hc hc2 _ _ _
    rw [List.length_eq_zero.mp hc, List.length_eq_zero.mp hc2]
  | cons s rest ih =>
    intro c c2 hs hc hc2 hb hb2 hh
    cases c with
    | nil => simp at hc
    | cons a as =>
      cases c2 with
      | nil => simp at hc2
      | cons b bs =>
        simp only [List.length_cons] at hc hc2 hb hb2 hh
        rw [compute_strides_cons, hash_cons, hash_cons] at hh
        have ha := hb 0 (by omega)
        have hb0 := hb2 0 (by omega)
        simp only [List.getD_cons_zero] at ha hb0
        have hs1 : 1 ≤ s := hs s (List.mem_cons_self _ _)
        have hmod := congrArg (fun x => x % s) hh
        simp only [Int.add_mul_emod_self_left] at hmod
        rw [Int.emod_eq_of_lt ha.1 ha.2, Int.emod_eq_of_lt hb0.1 hb0.2] at hmod
        subst hmod
        have hrest : (List.zipWith (· * ·) as (compute_strides rest.length rest)).sum
            = (List.zipWith (· * ·) bs (compute_strides rest.length rest)).sum := by
          have h2 := add_left_cancel hh
          exact mul_left_cancel₀ (by omega : s ≠ 0) h2
        have := ih as bs (fun x hx => hs x (List.mem_cons_of_mem _ hx)) (by omega) (by omega)
          (fun d hd => by simpa using hb (d + 1) (by omega))
          (fun d hd => by simpa using hb2 (d + 1) (by omega)) hrest
        rw [this]

end GridSpec


open GridSpec

/-! ## Lemmas on the bounding box -/

theorem zipWith_min_point : ∀ (lo p : List ℚ),
    List.zipWith Real_t.min (point lo) (point p) = point (List.zipWith min lo p)
  | [], _ => by simp [point]
  | _ :: _, [] => by simp [point]
  | a :: lo, b :: p => by
    have ih := zipWith_min_point lo p
    simp only [point, List.map_cons, List.zipWith_cons_cons, Real_t.min_fin_fin] at ih ⊢
    rw [ih]

theorem zipWith_max_point : ∀ (hi p : List ℚ),
    List.zipWith Real_t.max (point hi) (point p) = point (List.zipWith max hi p)
  | [], _ => by simp [point]
  | _ :: _, [] => by simp [point]
  | a :: hi, b :: p => by
    have ih := zipWith_max_point hi p
    simp only [point, List.map_cons, List.zipWith_cons_cons, Real_t.max_fin_fin] at ih ⊢
    rw [ih]

theorem zipWith_min_inf : ∀ (n : Nat) (p : List ℚ), p.length = n →
    List.zipWith Real_t.min (List.replicate n Real_t.inf) (point p) = point p
  | 0, p, h => by rw [List.length_eq_zero.mp h]; simp [point]
  | n + 1, [], h => by simp at h
  | n + 1, a :: p, h => by
    have ih := zipWith_min_inf n p (by simpa using h)
    simp only [point, List.replicate_succ, List.map_cons, List.zipWith_cons_cons,
      Real_t.min_inf_fin] at ih ⊢
    rw [ih]

theorem zipWith_max_neg_inf : ∀ (n : Nat) (p : List ℚ), p.length = n →
    List.zipWith Real_t.max (List.replicate n Real_t.neg_inf) (point p) = point p
  | 0, p, h => by rw [List.length_eq_zero.mp h]; simp [point]
  | n + 1, [], h => by simp at h
  | n + 1, a :: p, h => by
    have ih := zipWith_max_neg_inf n p (by simpa using h)
    simp only [point, List.replicate_succ, List.map_cons, List.zipWith_cons_cons,
      Real_t.max_neg_inf_fin] at ih ⊢
    rw [ih]

/-- The loop of `compute_bounding_box` from a finite box over finite points. -/
theorem box_loop : ∀ (rest : List (List ℚ)) (lo hi : List ℚ),
    (rest.map point).foldl
        (fun box p =>
          ({ row0 := List.zipWith Real_t.min box.row0 p,
             row1 := List.zipWith Real_t.max box.row1 p } : box_t))
        ⟨point lo, point hi⟩
      = ⟨point (rest.foldl (List.zipWith min) lo), point (rest.foldl (List.zipWith max) hi)⟩
  | [], _, _ => rfl
  | p :: rest, lo, hi => by
    simp only [List.map_cons, List.foldl_cons, zipWith_min_point, zipWith_max_point]
    exact box_loop rest _ _

theorem compute_bounding_box_cons (n_dim : Nat) (p : List ℚ) (rest : List (List ℚ))
    (hp : p.length = n_dim) :
    compute_bounding_box n_dim ((p :: rest).map point)
      = ⟨point (rest.foldl (List.zipWith min) p), point (rest.foldl (List.zipWith max) p)⟩ := by
  unfold compute_bounding_box
  simp only [List.map_cons, List.foldl_cons, zipWith_min_inf n_dim p hp,
    zipWith_max_neg_inf n_dim p hp]
  exact box_loop rest p p

theorem foldl_min_bounds (n : Nat) : ∀ (rest : List (List ℚ)) (acc : List ℚ),
    acc.length = n → (∀ p ∈ rest, p.length = n) →
    (rest.foldl (List.zipWith min) acc).length = n ∧
    ∀ d, d < n → (rest.foldl (List.zipWith min) acc).getD d 0 ≤ acc.getD d 0 ∧
      ∀ p ∈ rest, (rest.foldl (List.zipWith min) acc).getD d 0 ≤ p.getD d 0
  | [], acc, ha, _ => ⟨ha, fun d _ => ⟨le_refl _, fun p hp => by simp at hp⟩⟩
  | q :: rest, acc, ha, hr => by
    have hq : q.length = n := hr q (List.mem_cons_self _ _)
    have hz : (List.zipWith min acc q).length = n := by simp [ha, hq]
    obtain ⟨hl, hb⟩ := foldl_min_bounds n rest (List.zipWith min acc q) hz
      (fun p hp => hr p (List.mem_cons_of_mem _ hp))
    refine ⟨hl, fun d hd => ?_⟩
    obtain ⟨h1, h2⟩ := hb d hd
    have hzd : (List.zipWith min acc q).getD d 0 = min (acc.getD d 0) (q.getD d 0) := by
      have h3 : d < acc.length := by omega
      have h4 : d < q.length := by omega
      rw [List.getD_eq_getElem _ 0 (by omega), List.getD_eq_getElem acc 0 h3,
        List.getD_eq_getElem q 0 h4, List.getElem_zipWith]
    rw [hzd] at h1
    simp only [List.foldl_cons]
    refine ⟨le_trans h1 (min_le_left _ _), fun p hp => ?_⟩
    rcases List.mem_cons.mp hp with rfl | hp
    · exact le_trans h1 (min_le_right _ _)
    · exact h2 p hp

theorem foldl_max_bounds (n : Nat) : ∀ (rest : List (List ℚ)) (acc : List ℚ),
    acc.length = n → (∀ p ∈ rest, p.length = n) →
    (rest.foldl (List.zipWith max) acc).length = n ∧
    ∀ d, d < n → acc.getD d 0 ≤ (rest.foldl (List.zipWith max) acc).getD d 0 ∧
      ∀ p ∈ rest, p.getD d 0 ≤ (rest.foldl (List.zipWith max) acc).getD d 0
  | [], acc, ha, _ => ⟨ha, fun d _ => ⟨le_refl _, fun p hp => by simp at hp⟩⟩
  | q :: rest, acc, ha, hr => by
    have hq : q.length = n := hr q (List.mem_cons_self _ _)
    have hz : (List.zipWith max acc q).length = n := by simp [ha, hq]
    obtain ⟨hl, hb⟩ := foldl_max_bounds n rest (List.zipWith max acc q) hz
      (fun p hp => hr p (List.mem_cons_of_mem _ hp))
    refine ⟨hl, fun d hd => ?_⟩
    obtain ⟨h1, h2⟩ := hb d hd
    have hzd : (List.zipWith max acc q).getD d 0 = max (acc.getD d 0) (q.getD d 0) := by
      have h3 : d < acc.length := by omega
      have h4 : d < q.length := by omega
      rw [List.getD_eq_getElem _ 0 (by omega), List.getD_eq_getElem acc 0 h3,
        List.getD_eq_getElem q 0 h4, List.getElem_zipWith]
    rw [hzd] at h1
    simp only [List.foldl_cons]
    refine ⟨le_trans (le_max_left _ _) h1, fun p hp => ?_⟩
    rcases List.mem_cons.mp hp with rfl | hp
    · exact le_trans (le_max_right _ _) h1
    · exact h2 p hp

theorem Real_t.min_fin_right_comm (r : Real_t) (a b : ℚ) :
    Real_t.min (Real_t.min r (Real_t.fin a)) (Real_t.fin b)
      = Real_t.min (Real_t.min r (Real_t.fin b)) (Real_t.fin a) := by
  cases r with
  | nan => simp [Real_t.min, Real_t.lt]
  | neg_inf => simp [Real_t.min, Real_t.lt]
  | inf => simp only [Real_t.min_inf_fin, Real_t.min_fin_fin, min_comm]
  | fin c => simp only [Real_t.min_fin_fin]; rw [inf_right_comm]

theorem Real_t.max_fin_right_comm (r : Real_t) (a b : ℚ) :
    Real_t.max (Real_t.max r (Real_t.fin a)) (Real_t.fin b)
      = Real_t.max (Real_t.max r (Real_t.fin b)) (Real_t.fin a) := by
  cases r with
  | nan => simp [Real_t.max, Real_t.lt]
  | neg_inf => simp only [Real_t.max_neg_inf_fin, Real_t.max_fin_fin, max_comm]
  | inf => simp [Real_t.max, Real_t.lt]
  | fin c => simp only [Real_t.max_fin_fin]; rw [sup_right_comm]

theorem zipWith_min_right_comm : ∀ (r : vector_t) (x y : List ℚ),
    List.zipWith Real_t.min (List.zipWith Real_t.min r (point x)) (point y)
      = List.zipWith Real_t.min (List.zipWith Real_t.min r (point y)) (point x)
  | [], _, _ => by simp
  | _ :: _, [], [] => by simp [point]
  | _ :: _, [], _ :: _ => by simp [point]
  | _ :: _, _ :: _, [] => by simp [point]
  | r :: rs, a :: x, b :: y => by
    have ih := zipWith_min_right_comm rs x y
    simp only [point, List.map_cons, List.zipWith_cons_cons] at ih ⊢
    rw [ih, Real_t.min_fin_right_comm]

theorem zipWith_max_right_comm : ∀ (r : vector_t) (x y : List ℚ),
    List.zipWith Real_t.max (List.zipWith Real_t.max r (point x)) (point y)
      = List.zipWith Real_t.max (List.zipWith Real_t.max r (point y)) (point x)
  | [], _, _ => by simp
  | _ :: _, [], [] => by simp [point]
  | _ :: _, [], _ :: _ => by simp [point]
  | _ :: _, _ :: _, [] => by simp [point]
  | r :: rs, a :: x, b :: y => by
    have ih := zipWith_max_right_comm rs x y
    simp only [point, List.map_cons, List.zipWith_cons_cons] at ih ⊢
    rw [ih, Real_t.max_fin_right_comm]

namespace SparseGrid

/-! ## Further lemmas on SparseGrid -/

/-- A key that occurs in `keys` is found by the lookup, under its group. -/
theorem Sorted.get_of_mem {s : SparseGrid} (h : Sorted s)
    (hperm : s.permutation.Perm (List.range s.n_keys)) {k : Int} (hk : k ∈ s.keys) :
    ∃ g, g < (finish s).n_groups ∧ (finish s).unique_keys.getD g 0 = k ∧
      (finish s).group_from_key.get k = (g : Int) := by
  obtain ⟨i0, hi0, hki0⟩ := List.mem_iff_getElem.mp hk
  obtain ⟨j0, hj0, hji0⟩ := position_of_index hperm
    (show i0 < s.n_keys by rw [h.n_keys_eq]; exact hi0)
  obtain ⟨g0, hg0, -, -, hu0⟩ := h.group_of_position hj0
  have hk0 : (finish s).unique_keys.getD g0 0 = k := by
    rw [hu0, hji0, List.getD_eq_getElem s.keys 0 hi0, hki0]
  have hmem : k ∈ (finish s).unique_keys := by
    have hl : g0 < (finish s).unique_keys.length := by rw [unique_keys_length]; exact hg0
    rw [List.getD_eq_getElem _ 0 hl] at hk0
    rw [← hk0]; exact List.getElem_mem hl
  rcases h.group_from_key_get k with ⟨habs, -⟩ | ⟨g, hg, hug, hget⟩
  · exact absurd hmem habs
  · exact ⟨g, hg, hug, hget⟩

/-- A key that does not occur in `keys` is not found by the lookup. -/
theorem Sorted.get_of_not_mem {s : SparseGrid} (h : Sorted s)
    (hperm : s.permutation.Perm (List.range s.n_keys)) {k : Int} (hk : k ∉ s.keys) :
    (finish s).group_from_key.get k = -1 := by
  rcases h.group_from_key_get k with ⟨-, h1⟩ | ⟨g, hg, hug, -⟩
  · exact h1
  · exfalso
    apply hk
    have hlt := h.pivots_lt hg
    obtain ⟨hjn, hjk⟩ := h.key_in_group hg (Nat.le_refl _) hlt
    rw [hug] at hjk
    have hlt2 : s.permutation.getD ((finish s).pivots.getD g 0) 0 < s.keys.length := by
      rw [← h.n_keys_eq]; exact getD_lt_of_perm hperm hjn
    rw [List.getD_eq_getElem s.keys 0 hlt2] at hjk
    rw [← hjk]; exact List.getElem_mem hlt2

/-- The indices stored in group `g` are exactly the indices whose key is the
key of the group. -/
theorem Sorted.mem_group_iff {s : SparseGrid} (h : Sorted s)
    (hperm : s.permutation.Perm (List.range s.n_keys)) {g : Nat}
    (hg : g < (finish s).n_groups) (i : Nat) :
    (∃ j, (finish s).pivots.getD g 0 ≤ j ∧ j < (finish s).pivots.getD (g + 1) 0 ∧
        s.permutation.getD j 0 = i) ↔
      i < s.n_keys ∧ s.keys.getD i 0 = (finish s).unique_keys.getD g 0 := by
  constructor
  · rintro ⟨j, h1, h2, rfl⟩
    obtain ⟨hjn, hjk⟩ := h.key_in_group hg h1 h2
    exact ⟨getD_lt_of_perm hperm hjn, hjk⟩
  · rintro ⟨hi, hik⟩
    obtain ⟨j, hj, hji⟩ := position_of_index hperm hi
    obtain ⟨g1, hg1, hp1, hp2, hu1⟩ := h.group_of_position hj
    have hgg : g1 = g := h.unique_keys_inj hg1 hg (by rw [hu1, hji, hik])
    subst hgg
    exact ⟨j, hp1, hp2, hji⟩

theorem Sorted.mem_indices_iff {s : SparseGrid} (h : Sorted s)
    (hperm : s.permutation.Perm (List.range s.n_keys)) {k : Int} (hk : k ∈ s.keys) (i : Nat) :
    i ∈ (finish s).indices_from_key k ↔ i < s.n_keys ∧ s.keys.getD i 0 = k := by
  obtain ⟨g, hg, hug, hget⟩ := h.get_of_mem hperm hk
  rw [indices_of_group _ k g hget, ← hug, ← h.mem_group_iff hperm hg i, List.mem_map]
  have hlt := h.pivots_lt hg
  constructor
  · rintro ⟨j, hj, hji⟩
    rw [List.mem_range'_1] at hj
    exact ⟨j, hj.1, by omega, hji⟩
  · rintro ⟨j, h1, h2, hji⟩
    exact ⟨j, by rw [List.mem_range'_1]; omega, hji⟩

theorem Sorted.indices_nodup {s : SparseGrid} (h : Sorted s)
    (hperm : s.permutation.Perm (List.range s.n_keys)) {k : Int} (hk : k ∈ s.keys) :
    ((finish s).indices_from_key k).Nodup := by
  obtain ⟨g, hg, hug, hget⟩ := h.get_of_mem hperm hk
  rw [indices_of_group _ k g hget]
  apply List.Nodup.map_on _ (List.nodup_range' _ _)
  intro a ha b hb hab
  rw [List.mem_range'_1] at ha hb
  have hlt := h.pivots_lt hg
  exact getD_inj_of_perm hperm (h.key_in_group hg ha.1 (by omega)).1
    (h.key_in_group hg hb.1 (by omega)).1 hab

theorem indices_of_absent (G : SparseGrid) (k : Int) (hget : G.group_from_key.get k = -1) :
    G.indices_from_key k = [] := by
  simp [indices_from_key, hget, transformed, irange]

theorem existing_eq_of_group (G : SparseGrid) (k : Int) (g : Nat)
    (hg : G.group_from_key.get k = (g : Int)) :
    G.indices_from_existing_key k = G.indices_from_key k := by
  unfold indices_from_existing_key indices_from_key
  have h1 : ((g : Int) == -1) = false := by
    rw [beq_eq_false_iff_ne]; omega
  simp only [hg, h1]
  rfl

/-- The keys read through the permutation are the sorted rearrangement of the
keys read through any other permutation of the same entries. -/
theorem Sorted.sorted_keys_unique {s t : SparseGrid} (hs : Sorted s) (ht : Sorted t)
    (hkeys : s.keys = t.keys) (hperm : s.permutation.Perm t.permutation) :
    s.sorted_keys = t.sorted_keys := by
  apply List.eq_of_perm_of_sorted (r := (· ≤ ·)) _ hs.sorted ht.sorted
  unfold sorted_keys transformed
  rw [hkeys]
  exact hperm.map _

theorem Sorted.unique_keys_eq {s : SparseGrid} (h : Sorted s) :
    (finish s).unique_keys
      = (List.range ((pivotsOf s.sorted_keys).length - 1)).map
          (fun g => s.sorted_keys.getD ((pivotsOf s.sorted_keys).getD g 0) 0) := by
  have hn := h.n_groups_succ
  apply List.ext_getElem
  · rw [unique_keys_length]; simp; omega
  · intro g h1 h2
    rw [unique_keys_length] at h1
    rw [← List.getD_eq_getElem _ 0, h.unique_keys_getD h1]
    simp

end SparseGrid

/-! ## Lemmas for the remaining claims -/

namespace SparseGrid

theorem sort_nil (B : BoostSort) (comp : Nat → Nat → Bool) (h : StrictWeakOrder comp) :
    B.sort [] comp = [] := by
  simpa using B.perm [] comp h

end SparseGrid

namespace GridSpec

theorem cell_from_local_position_getElem? (G : GridSpec) (qs : List ℚ) (d : Nat)
    (hd : d < qs.length) :
    (G.cell_from_local_position (point qs))[d]?
      = some (if 0 ≤ qs.getD d 0 then ⌊qs.getD d 0⌋ else ⌈qs.getD d 0⌉) := by
  simp [cell_from_local_position, point, List.getElem?_eq_getElem hd,
    List.getD_eq_getElem qs 0 hd, Real_t.cast]

end GridSpec

/-- Two grids over the same keys, built from hints that are permutations of
`[0, n_keys)`, agree on pivots, group count and group membership. -/
theorem ofKeysHint_agree (B1 B2 : BoostSort) (keys : List Int) (hint1 hint2 : List Nat)
    (h1 : hint1.Perm (List.range keys.length)) (h2 : hint2.Perm (List.range keys.length)) :
    (ofKeysHint B1 keys hint1).pivots = (ofKeysHint B2 keys hint2).pivots ∧
    (ofKeysHint B1 keys hint1).n_groups = (ofKeysHint B2 keys hint2).n_groups ∧
    ∀ g, g < (ofKeysHint B1 keys hint1).n_groups → ∀ i,
      (∃ j, (ofKeysHint B1 keys hint1).pivots.getD g 0 ≤ j ∧
          j < (ofKeysHint B1 keys hint1).pivots.getD (g + 1) 0 ∧
          (ofKeysHint B1 keys hint1).permutation.getD j 0 = i) ↔
      (∃ j, (ofKeysHint B2 keys hint2).pivots.getD g 0 ≤ j ∧
          j < (ofKeysHint B2 keys hint2).pivots.getD (g + 1) 0 ∧
          (ofKeysHint B2 keys hint2).permutation.getD j 0 = i) := by
  have hl1 : hint1.length = keys.length := by simpa using h1.length_eq
  have hl2 : hint2.length = keys.length := by simpa using h2.length_eq
  obtain ⟨s, hS, hG, hsk, hsn, hsp⟩ := ofKeysHint_decomp B1 keys hint1 hl1
  obtain ⟨t, hT, hH, htk, htn, htp⟩ := ofKeysHint_decomp B2 keys hint2 hl2
  have hsr : s.permutation.Perm (List.range s.n_keys) := by rw [hsn]; exact hsp.trans h1
  have htr : t.permutation.Perm (List.range t.n_keys) := by rw [htn]; exact htp.trans h2
  have hsk2 : s.sorted_keys = t.sorted_keys :=
    hS.sorted_keys_unique hT (hsk.trans htk.symm) (hsr.trans (by rw [hsn, ← htn]; exact htr.symm))
  have hpiv : (finish s).pivots = (finish t).pivots := by
    rw [hS.pivots_eq, hT.pivots_eq, hsk2]
  have hng : (finish s).n_groups = (finish t).n_groups := by
    have a := hS.n_groups_succ
    have b := hT.n_groups_succ
    rw [hsk2] at a
    omega
  have huk : (finish s).unique_keys = (finish t).unique_keys := by
    rw [hS.unique_keys_eq, hT.unique_keys_eq, hsk2]
  rw [hG, hH]
  refine ⟨hpiv, hng, ?_⟩
  intro g hg i
  simp only [finish_permutation]
  rw [hS.mem_group_iff hsr hg i, hT.mem_group_iff htr (by omega) i, huk, hsk, htk, hsn, htn]

/-! ## Claims on strides, hashing, the bounding box and truncation -/

/-- C11: when `strides = compute_strides(shape)` and every entry of `shape`
is at least 1, `hash_from_cell` is injective on the cells `c` with
`0 <= c[d] < shape[d]` on every axis. -/
theorem C11_hash_from_cell_injective (G : GridSpec) (c c2 : cell_t)
    (hstr : G.strides = compute_strides G.n_dim G.shape)
    (hlen : G.shape.length = G.n_dim) (hshape : ∀ s ∈ G.shape, 1 ≤ s)
    (hc : c.length = G.n_dim) (hc2 : c2.length = G.n_dim)
    (hb : ∀ d, d < G.n_dim → 0 ≤ c.getD d 0 ∧ c.getD d 0 < G.shape.getD d 0)
    (hb2 : ∀ d, d < G.n_dim → 0 ≤ c2.getD d 0 ∧ c2.getD d 0 < G.shape.getD d 0)
    (hh : G.hash_from_cell c = G.hash_from_cell c2) : c = c2 := by
  simp only [hash_from_cell, hstr, ← hlen] at hh
  rw [← hlen] at hc hc2 hb hb2
  exact hash_injective G.shape c c2 hshape hc hc2 hb hb2 hh

theorem C11_hash_from_cell_injective_witness :
    (GridSpec.mk 2 (Real_t.fin 1) ⟨[], []⟩ [2, 3] [1, 2]).hash_from_cell [1, 2]
      = (GridSpec.mk 2 (Real_t.fin 1) ⟨[], []⟩ [2, 3] [1, 2]).hash_from_cell [1, 2] ∧
    ([1, 2] : cell_t) = [1, 2] :=
  ⟨rfl, C11_hash_from_cell_injective (GridSpec.mk 2 (Real_t.fin 1) ⟨[], []⟩ [2, 3] [1, 2])
    [1, 2] [1, 2] (by decide) (by decide) (by decide) (by decide) (by decide)
    (by decide) (by decide) rfl⟩

/-- C12: for a non-empty sequence of points of dimension `n_dim` the box of
`compute_bounding_box` has finite rows `lo` and `hi` of dimension `n_dim` with
`lo[d] <= p[d] <= hi[d]` for every input point `p` and every axis `d`. -/
theorem C12_bounding_box_contains_points (n_dim : Nat) (points : List (List ℚ))
    (hne : points ≠ []) (hdim : ∀ p ∈ points, p.length = n_dim) :
    ∃ lo hi : List ℚ,
      compute_bounding_box n_dim (points.map point) = ⟨point lo, point hi⟩ ∧
      lo.length = n_dim ∧ hi.length = n_dim ∧
      (∀ p ∈ points, ∀ d, d < n_dim →
        lo.getD d 0 ≤ p.getD d 0 ∧ p.getD d 0 ≤ hi.getD d 0) ∧
      (∀ d, d < n_dim → lo.getD d 0 ≤ hi.getD d 0) := by
  cases points with
  | nil => exact absurd rfl hne
  | cons p0 rest =>
    have hp0 : p0.length = n_dim := hdim p0 (List.mem_cons_self _ _)
    have hrest : ∀ p ∈ rest, p.length = n_dim := fun p hp => hdim p (List.mem_cons_of_mem _ hp)
    obtain ⟨hl1, hb1⟩ := foldl_min_bounds n_dim rest p0 hp0 hrest
    obtain ⟨hl2, hb2⟩ := foldl_max_bounds n_dim rest p0 hp0 hrest
    refine ⟨_, _, compute_bounding_box_cons n_dim p0 rest hp0, hl1, hl2, ?_, ?_⟩
    · intro p hp d hd
      rcases List.mem_cons.mp hp with rfl | hp
      · exact ⟨(hb1 d hd).1, (hb2 d hd).1⟩
      · exact ⟨(hb1 d hd).2 p hp, (hb2 d hd).2 p hp⟩
    · intro d hd
      exact le_trans (hb1 d hd).1 (hb2 d hd).1

theorem C12_bounding_box_contains_points_witness :
    ∃ lo hi : List ℚ,
      compute_bounding_box 2 (([[3, 0], [1, 1]] : List (List ℚ)).map point)
        = ⟨point lo, point hi⟩ ∧
      lo.length = 2 ∧ hi.length = 2 ∧
      (∀ p ∈ ([[3, 0], [1, 1]] : List (List ℚ)), ∀ d, d < 2 →
        lo.getD d 0 ≤ p.getD d 0 ∧ p.getD d 0 ≤ hi.getD d 0) ∧
      (∀ d, d < 2 → lo.getD d 0 ≤ hi.getD d 0) :=
  C12_bounding_box_contains_points 2 [[3, 0], [1, 1]] (List.cons_ne_nil _ _) (by simp)

/-- In exact integers: for a shape of dimension `n_dim >= 1`,
`compute_strides` returns `n_dim` strides with `strides[0] = 1` and
`strides[d] = strides[d-1] * shape[d-1]` for `1 <= d < n_dim`; so `strides[d]`
is the product of `shape[0..d)`. -/
theorem compute_strides_recurrence (n_dim : Nat) (shape : cell_t)
    (hlen : shape.length = n_dim) (hn : 1 ≤ n_dim) :
    (compute_strides n_dim shape).length = n_dim ∧
    (compute_strides n_dim shape)[0]? = some 1 ∧
    (∀ d, 1 ≤ d → d < n_dim →
      (compute_strides n_dim shape).getD d 0
        = (compute_strides n_dim shape).getD (d - 1) 0 * shape.getD (d - 1) 0) ∧
    (∀ d, d < n_dim → (compute_strides n_dim shape).getD d 0 = (shape.take d).prod) := by
  have hl := compute_strides_length n_dim shape hlen
  refine ⟨hl, ?_, ?_, fun d hd => compute_strides_getD n_dim shape hlen hd⟩
  · have h0 : 0 < (compute_strides n_dim shape).length := by omega
    rw [List.getElem?_eq_getElem h0, ← List.getD_eq_getElem _ 0 h0,
      compute_strides_getD n_dim shape hlen (by omega)]
    simp
  · intro d hd1 hdn
    obtain ⟨e, rfl⟩ : ∃ e, d = e + 1 := ⟨d - 1, by omega⟩
    have he : e < shape.length := by omega
    rw [compute_strides_getD n_dim shape hlen hdn, Nat.add_sub_cancel,
      compute_strides_getD n_dim shape hlen (by omega), List.prod_take_succ shape e he,
      List.getD_eq_getElem shape 0 he]

theorem compute_strides_recurrence_example :
    ([6, 6, 4] : cell_t).length = 3 ∧ 1 ≤ 3 ∧
    ((compute_strides 3 [6, 6, 4]).length = 3 ∧
    (compute_strides 3 [6, 6, 4])[0]? = some 1 ∧
    (∀ d, 1 ≤ d → d < 3 →
      (compute_strides 3 [6, 6, 4]).getD d 0
        = (compute_strides 3 [6, 6, 4]).getD (d - 1) 0 * ([6, 6, 4] : cell_t).getD (d - 1) 0) ∧
    (∀ d, d < 3 →
      (compute_strides 3 [6, 6, 4]).getD d 0 = (([6, 6, 4] : cell_t).take d).prod)) :=
  ⟨by decide, by decide, compute_strides_recurrence 3 [6, 6, 4] (by decide) (by decide)⟩

/-- C15 as stated fails: the local coordinate -1/2 is mapped to cell 0,
although `0 <= -1/2 < 1` does not hold. -/
theorem C15_negative_coordinate_counterexample :
    ¬ ((cell_from_local_position (GridSpec.mk 1 (Real_t.fin 1) ⟨[], []⟩ [1] [1])
          (point [-1 / 2]))[0]? = some 0 ↔
        (((0 : Int) : ℚ) ≤ -1 / 2 ∧ (-1 / 2 : ℚ) < ((0 : Int) : ℚ) + 1)) := by
  intro h
  have h1 : (cell_from_local_position (GridSpec.mk 1 (Real_t.fin 1) ⟨[], []⟩ [1] [1])
      (point [-1 / 2]))[0]? = some 0 := by
    rw [cell_from_local_position_getElem? _ _ 0 (by simp)]
    have hc : ⌈(-1 / 2 : ℚ)⌉ = 0 := by
      rw [Int.ceil_eq_iff]; norm_num
    simp only [List.getD_cons_zero]
    rw [if_neg (by norm_num), hc]
  have h2 := (h.mp h1).1
  norm_num at h2

/-- In exact integers: `cell_from_local_position` truncates toward zero. On
a non-negative coordinate the cell is `k` exactly when `k <= v[d] < k + 1`; on
a negative coordinate the cell is `k` exactly when `k - 1 < v[d] <= k`. -/
theorem cell_from_local_position_truncation (G : GridSpec) (qs : List ℚ) (d : Nat)
    (hd : d < qs.length) (k : Int) :
    (G.cell_from_local_position (point qs))[d]? = some k ↔
      (0 ≤ qs.getD d 0 ∧ (k : ℚ) ≤ qs.getD d 0 ∧ qs.getD d 0 < (k : ℚ) + 1) ∨
      (qs.getD d 0 < 0 ∧ (k : ℚ) - 1 < qs.getD d 0 ∧ qs.getD d 0 ≤ (k : ℚ)) := by
  rw [cell_from_local_position_getElem? G qs d hd, Option.some_inj]
  by_cases h0 : 0 ≤ qs.getD d 0
  · rw [if_pos h0, Int.floor_eq_iff]
    constructor
    · intro h; exact Or.inl ⟨h0, h⟩
    · rintro (⟨-, h⟩ | ⟨hneg, -⟩)
      · exact h
      · exact absurd h0 (not_le.mpr hneg)
  · rw [if_neg h0, Int.ceil_eq_iff]
    constructor
    · intro h; exact Or.inr ⟨not_le.mp h0, h⟩
    · rintro (⟨hpos, -⟩ | ⟨-, h⟩)
      · exact absurd hpos h0
      · exact h

theorem cell_from_local_position_truncation_example :
    (0 : Nat) < ([-1 / 2, 5 / 2] : List ℚ).length ∧
    ((cell_from_local_position (GridSpec.mk 2 (Real_t.fin 1) ⟨[], []⟩ [1, 1] [1, 1])
        (point [-1 / 2, 5 / 2]))[0]? = some 0 ↔
      (0 ≤ ([-1 / 2, 5 / 2] : List ℚ).getD 0 0 ∧
        ((0 : Int) : ℚ) ≤ ([-1 / 2, 5 / 2] : List ℚ).getD 0 0 ∧
        ([-1 / 2, 5 / 2] : List ℚ).getD 0 0 < ((0 : Int) : ℚ) + 1) ∨
      (([-1 / 2, 5 / 2] : List ℚ).getD 0 0 < 0 ∧
        ((0 : Int) : ℚ) - 1 < ([-1 / 2, 5 / 2] : List ℚ).getD 0 0 ∧
        ([-1 / 2, 5 / 2] : List ℚ).getD 0 0 ≤ ((0 : Int) : ℚ))) :=
  ⟨by decide, cell_from_local_position_truncation (GridSpec.mk 2 (Real_t.fin 1) ⟨[], []⟩ [1, 1] [1, 1])
    [-1 / 2, 5 / 2] 0 (by decide) 0⟩

/-! ## Claims on hints, the worked example and the empty array -/

/-- C14: for hints that are permutations of `[0, n_keys)`, the grid built with
a hint and the grid built without one, and the grids built with two different
hints, have the same pivots, the same `n_groups`, and for every group the same
set of indices `{permutation[i] : pivots[g] <= i < pivots[g+1]}`. -/
theorem C14_hint_independent (B : BoostSort) (keys : List Int) (hint hint2 : List Nat)
    (h1 : hint.Perm (List.range keys.length)) (h2 : hint2.Perm (List.range keys.length)) :
    ((ofKeysHint B keys hint).pivots = (ofKeys B keys).pivots ∧
      (ofKeysHint B keys hint).n_groups = (ofKeys B keys).n_groups ∧
      ∀ g, g < (ofKeysHint B keys hint).n_groups → ∀ i,
        (∃ j, (ofKeysHint B keys hint).pivots.getD g 0 ≤ j ∧
            j < (ofKeysHint B keys hint).pivots.getD (g + 1) 0 ∧
            (ofKeysHint B keys hint).permutation.getD j 0 = i) ↔
        (∃ j, (ofKeys B keys).pivots.getD g 0 ≤ j ∧
            j < (ofKeys B keys).pivots.getD (g + 1) 0 ∧
            (ofKeys B keys).permutation.getD j 0 = i)) ∧
    ((ofKeysHint B keys hint).pivots = (ofKeysHint B keys hint2).pivots ∧
      (ofKeysHint B keys hint).n_groups = (ofKeysHint B keys hint2).n_groups ∧
      ∀ g, g < (ofKeysHint B keys hint).n_groups → ∀ i,
        (∃ j, (ofKeysHint B keys hint).pivots.getD g 0 ≤ j ∧
            j < (ofKeysHint B keys hint).pivots.getD (g + 1) 0 ∧
            (ofKeysHint B keys hint).permutation.getD j 0 = i) ↔
        (∃ j, (ofKeysHint B keys hint2).pivots.getD g 0 ≤ j ∧
            j < (ofKeysHint B keys hint2).pivots.getD (g + 1) 0 ∧
            (ofKeysHint B keys hint2).permutation.getD j 0 = i)) := by
  constructor
  · rw [ofKeys_eq]
    exact ofKeysHint_agree B B keys hint _ h1 (by rw [irange_zero])
  · exact ofKeysHint_agree B B keys hint hint2 h1 h2

theorem C14_hint_independent_witness :
    ((ofKeysHint insertion_sort [5, 7, 5] [2, 1, 0]).pivots
        = (ofKeys insertion_sort [5, 7, 5]).pivots ∧
      (ofKeysHint insertion_sort [5, 7, 5] [2, 1, 0]).n_groups
        = (ofKeys insertion_sort [5, 7, 5]).n_groups ∧
      ∀ g, g < (ofKeysHint insertion_sort [5, 7, 5] [2, 1, 0]).n_groups → ∀ i,
        (∃ j, (ofKeysHint insertion_sort [5, 7, 5] [2, 1, 0]).pivots.getD g 0 ≤ j ∧
            j < (ofKeysHint insertion_sort [5, 7, 5] [2, 1, 0]).pivots.getD (g + 1) 0 ∧
            (ofKeysHint insertion_sort [5, 7, 5] [2, 1, 0]).permutation.getD j 0 = i) ↔
        (∃ j, (ofKeys insertion_sort [5, 7, 5]).pivots.getD g 0 ≤ j ∧
            j < (ofKeys insertion_sort [5, 7, 5]).pivots.getD (g + 1) 0 ∧
            (ofKeys insertion_sort [5, 7, 5]).permutation.getD j 0 = i)) ∧
    ((ofKeysHint insertion_sort [5, 7, 5] [2, 1, 0]).pivots
        = (ofKeysHint insertion_sort [5, 7, 5] [1, 0, 2]).pivots ∧
      (ofKeysHint insertion_sort [5, 7, 5] [2, 1, 0]).n_groups
        = (ofKeysHint insertion_sort [5, 7, 5] [1, 0, 2]).n_groups ∧
      ∀ g, g < (ofKeysHint insertion_sort [5, 7, 5] [2, 1, 0]).n_groups → ∀ i,
        (∃ j, (ofKeysHint insertion_sort [5, 7, 5] [2, 1, 0]).pivots.getD g 0 ≤ j ∧
            j < (ofKeysHint insertion_sort [5, 7, 5] [2, 1, 0]).pivots.getD (g + 1) 0 ∧
            (ofKeysHint insertion_sort [5, 7, 5] [2, 1, 0]).permutation.getD j 0 = i) ↔
        (∃ j, (ofKeysHint insertion_sort [5, 7, 5] [1, 0, 2]).pivots.getD g 0 ≤ j ∧
            j < (ofKeysHint insertion_sort [5, 7, 5] [1, 0, 2]).pivots.getD (g + 1) 0 ∧
            (ofKeysHint insertion_sort [5, 7, 5] [1, 0, 2]).permutation.getD j 0 = i)) :=
  C14_hint_independent insertion_sort [5, 7, 5] [2, 1, 0] [1, 0, 2] (by decide) (by decide)

/-- C16: the worked example. For the points (0,0), (0,0), (1,1), (5,5) and
scale 1 the box is [(0,0),(5,5)], the shape (6,6), the strides (1,6) and the
hashes of the four points are 0, 0, 7, 35; the grid over the keys
[0,0,7,35] has 3 groups, pivots [0,2,3,4], unique keys [0,7,35],
`indices_from_key(0)` yields exactly the indices 0 and 1 (each once), and
`indices_from_key(99)` yields nothing. -/
theorem C16_worked_example (B : BoostSort) :
    (GridSpec.new 2 [point [0, 0], point [0, 0], point [1, 1], point [5, 5]]
        (Real_t.fin 1)).box = ⟨point [0, 0], point [5, 5]⟩ ∧
    (GridSpec.new 2 [point [0, 0], point [0, 0], point [1, 1], point [5, 5]]
        (Real_t.fin 1)).shape = [6, 6] ∧
    (GridSpec.new 2 [point [0, 0], point [0, 0], point [1, 1], point [5, 5]]
        (Real_t.fin 1)).strides = [1, 6] ∧
    ([point [0, 0], point [0, 0], point [1, 1], point [5, 5]].map fun p =>
        (GridSpec.new 2 [point [0, 0], point [0, 0], point [1, 1], point [5, 5]]
          (Real_t.fin 1)).hash_from_cell
          ((GridSpec.new 2 [point [0, 0], point [0, 0], point [1, 1], point [5, 5]]
            (Real_t.fin 1)).cell_from_position p)) = [0, 0, 7, 35] ∧
    (ofKeys B [0, 0, 7, 35]).n_groups = 3 ∧
    (ofKeys B [0, 0, 7, 35]).pivots = [0, 2, 3, 4] ∧
    (ofKeys B [0, 0, 7, 35]).unique_keys = [0, 7, 35] ∧
    (∀ i, i ∈ (ofKeys B [0, 0, 7, 35]).indices_from_key 0 ↔ i = 0 ∨ i = 1) ∧
    ((ofKeys B [0, 0, 7, 35]).indices_from_key 0).Nodup ∧
    (ofKeys B [0, 0, 7, 35]).indices_from_key 99 = [] := by
  have hbox : GridSpec.compute_bounding_box 2
      [point [0, 0], point [0, 0], point [1, 1], point [5, 5]]
      = ⟨point [0, 0], point [5, 5]⟩ := by
    simp [GridSpec.compute_bounding_box, point, List.replicate, Real_t.min_inf_fin,
      Real_t.max_neg_inf_fin, Real_t.min_fin_fin, Real_t.max_fin_fin]
  have hshape : (GridSpec.new 2 [point [0, 0], point [0, 0], point [1, 1], point [5, 5]]
      (Real_t.fin 1)).shape = [6, 6] := by
    rw [GridSpec.new_shape, hbox]
    norm_num [point, Real_t.sub_fin_fin, Real_t.div_fin_fin, Real_t.cast]
  have hstrides : (GridSpec.new 2 [point [0, 0], point [0, 0], point [1, 1], point [5, 5]]
      (Real_t.fin 1)).strides = [1, 6] := by
    rw [GridSpec.new_strides, hshape]; decide
  have hc0 : (GridSpec.new 2 [point [0, 0], point [0, 0], point [1, 1], point [5, 5]]
      (Real_t.fin 1)).cell_from_position (point [0, 0]) = [0, 0] := by
    rw [GridSpec.new_cell_from_position, hbox]
    norm_num [point, Real_t.sub_fin_fin, Real_t.div_fin_fin, Real_t.cast]
  have hc1 : (GridSpec.new 2 [point [0, 0], point [0, 0], point [1, 1], point [5, 5]]
      (Real_t.fin 1)).cell_from_position (point [1, 1]) = [1, 1] := by
    rw [GridSpec.new_cell_from_position, hbox]
    norm_num [point, Real_t.sub_fin_fin, Real_t.div_fin_fin, Real_t.cast]
  have hc5 : (GridSpec.new 2 [point [0, 0], point [0, 0], point [1, 1], point [5, 5]]
      (Real_t.fin 1)).cell_from_position (point [5, 5]) = [5, 5] := by
    rw [GridSpec.new_cell_from_position, hbox]
    norm_num [point, Real_t.sub_fin_fin, Real_t.div_fin_fin, Real_t.cast]
  have hhash : ∀ a b : Int,
      (GridSpec.new 2 [point [0, 0], point [0, 0], point [1, 1], point [5, 5]]
        (Real_t.fin 1)).hash_from_cell [a, b] = a + 6 * b := by
    intro a b
    rw [GridSpec.hash_from_cell, hstrides]
    simp [mul_comm]
  obtain ⟨s, hS, hG, hkeys, hn, hperm⟩ := ofKeys_decomp B [0, 0, 7, 35]
  rw [← hn] at hperm
  have hsk : s.sorted_keys = [0, 0, 7, 35] := by
    apply List.eq_of_perm_of_sorted (r := (· ≤ ·)) _ hS.sorted (by decide)
    have hmap := hperm.map (fun i => s.keys.getD i 0)
    rw [hn, hkeys] at hmap
    have hread : List.map (fun i => ([0, 0, 7, 35] : List Int).getD i 0)
        (List.range ([0, 0, 7, 35] : List Int).length) = [0, 0, 7, 35] := by decide
    rw [hread] at hmap
    simpa [sorted_keys, transformed, hkeys] using hmap
  have hpiv : (finish s).pivots = [0, 2, 3, 4] := by
    rw [hS.pivots_eq, hsk]; decide
  have hng : (finish s).n_groups = 3 := by
    have := hS.n_groups_succ
    rw [hsk] at this
    have h4 : (pivotsOf [0, 0, 7, 35]).length = 4 := by decide
    omega
  have huk : (finish s).unique_keys = [0, 7, 35] := by
    rw [hS.unique_keys_eq, hsk]; decide
  have h0 : (0 : Int) ∈ s.keys := by rw [hkeys]; decide
  have h99 : (99 : Int) ∉ s.keys := by rw [hkeys]; decide
  refine ⟨hbox, hshape, hstrides, ?_, ?_⟩
  · simp only [List.map_cons, List.map_nil, hc0, hc1, hc5, hhash]
    norm_num
  · rw [hG]
    refine ⟨hng, hpiv, huk, ?_, hS.indices_nodup hperm h0, ?_⟩
    · intro i
      rw [hS.mem_indices_iff hperm h0 i, hn, hkeys]
      constructor
      · rintro ⟨hi, hk⟩
        have hi4 : i < 4 := hi
        interval_cases i
        · exact Or.inl rfl
        · exact Or.inr rfl
        · exact absurd hk (by decide)
        · exact absurd hk (by decide)
      · rintro (rfl | rfl)
        · exact ⟨by decide, by decide⟩
        · exact ⟨by decide, by decide⟩
    · exact indices_of_absent _ 99 (hS.get_of_not_mem hperm h99)

/-- C17: for a key that occurs in `keys`, `indices_from_existing_key` yields
the same indices in the same order as `indices_from_key`. -/
theorem C17_existing_key_same_sequence (B : BoostSort) (keys : List Int) (k : Int)
    (hk : k ∈ keys) :
    (ofKeys B keys).indices_from_existing_key k = (ofKeys B keys).indices_from_key k := by
  obtain ⟨s, hS, hG, hkeys, hn, hperm⟩ := ofKeys_decomp B keys
  rw [hG]
  rw [← hn] at hperm
  rw [← hkeys] at hk
  obtain ⟨g, -, -, hget⟩ := hS.get_of_mem hperm hk
  exact existing_eq_of_group _ k g hget

theorem C17_existing_key_same_sequence_witness :
    (7 : Int) ∈ [5, 7, 5, 7] ∧
    (ofKeys insertion_sort [5, 7, 5, 7]).indices_from_existing_key 7
      = (ofKeys insertion_sort [5, 7, 5, 7]).indices_from_key 7 :=
  ⟨by decide, C17_existing_key_same_sequence insertion_sort [5, 7, 5, 7] 7 (by decide)⟩

/-- C18: for the empty key array the constructor succeeds with every array
read bounds-checked and gives the same grid as the unchecked reading;
`pivots = [0]`, `n_groups = 0`, `unique_keys()` is empty, and
`indices_from_key(k)` is empty for every `k`, again without any out-of-range
read. -/
theorem C18_empty_key_array (B : BoostSort) :
    ofKeys_checked B [] = some (ofKeys B []) ∧
    (ofKeys B []).n_keys = 0 ∧
    (ofKeys B []).permutation = [] ∧
    (ofKeys B []).pivots = [0] ∧
    (ofKeys B []).n_groups = 0 ∧
    (ofKeys B []).unique_keys = [] ∧
    (ofKeys B []).unique_keys_checked = some [] ∧
    (∀ k, (ofKeys B []).indices_from_key k = [] ∧
      (ofKeys B []).indices_from_key_checked k = some []) := by
  have hsort : B.sort [] (start []).lex = [] := sort_nil B _ (lex_strictWeakOrder _)
  have hG : ofKeys B [] = SparseGrid.mk [] 0 [] [0] 0 (HashMap.mk []) := by
    simp [ofKeys, finish, init_permutation_default, init_permutation, copy, irange, start,
      init_pivots, transformed, indexed, adjacent_filtered, join, combine, unique_keys] at hsort ⊢
    simp [hsort, adjacent_filtered]
  have hp : (start []).init_permutation_checked B (irange 0 (start []).n_keys) = some [] := by
    simp only [init_permutation_checked, copy, irange, start, List.length_nil, Nat.sub_self,
      List.range'_zero, List.replicate_zero, List.take_nil, List.drop_nil, List.append_nil,
      Nat.le_refl, List.all_nil, and_self, if_true]
    exact congrArg some hsort
  have hC : ofKeys_checked B [] = some (SparseGrid.mk [] 0 [] [0] 0 (HashMap.mk [])) := by
    unfold ofKeys_checked
    simp only [hp]
    rfl
  rw [hC, hG]
  refine ⟨rfl, rfl, rfl, rfl, rfl, rfl, rfl, ?_⟩
  intro k
  constructor <;> rfl

/-- C19: `compute_bounding_box` returns the same box for a sequence of points
and for every reordering of it. -/
theorem C19_bounding_box_order_independent (n_dim : Nat) (l₁ l₂ : List (List ℚ))
    (h : l₁.Perm l₂) :
    compute_bounding_box n_dim (l₁.map point) = compute_bounding_box n_dim (l₂.map point) := by
  unfold compute_bounding_box
  apply List.Perm.foldl_eq' (h.map point)
  intro x hx y hy z
  obtain ⟨p, -, rfl⟩ := List.mem_map.mp hx
  obtain ⟨q, -, rfl⟩ := List.mem_map.mp hy
  simp only [zipWith_min_right_comm z.row0 p q, zipWith_max_right_comm z.row1 p q]

theorem C19_bounding_box_order_independent_witness :
    compute_bounding_box 2 (([[3, 0], [1, 1]] : List (List ℚ)).map point)
      = compute_bounding_box 2 (([[1, 1], [3, 0]] : List (List ℚ)).map point) :=
  C19_bounding_box_order_independent 2 [[3, 0], [1, 1]] [[1, 1], [3, 0]]
    (List.Perm.swap _ _ _)

/-- C20: with the hint constructor every index value occurs in
`permutation` exactly as often as in the hint; hence `permutation` is a
permutation of `[0, n_keys)` exactly when the hint is one. -/
theorem C20_permutation_reorders_hint (B : BoostSort) (keys : List Int) (hint : List Nat)
    (hlen : hint.length = keys.length) (_hidx : ∀ x ∈ hint, x < keys.length) :
    (∀ v, (ofKeysHint B keys hint).permutation.count v = hint.count v) ∧
    ((ofKeysHint B keys hint).permutation.Perm (List.range keys.length) ↔
      hint.Perm (List.range keys.length)) := by
  have hp := ofKeysHint_permutation B keys hint hlen
  exact ⟨fun v => hp.count_eq v, ⟨fun h => hp.symm.trans h, fun h => hp.trans h⟩⟩

theorem C20_permutation_reorders_hint_witness :
    ([3, 3, 0, 1] : List Nat).length = ([9, 2, 9, 4] : List Int).length ∧
    (∀ x ∈ ([3, 3, 0, 1] : List Nat), x < ([9, 2, 9, 4] : List Int).length) ∧
    ((∀ v, (ofKeysHint insertion_sort [9, 2, 9, 4] [3, 3, 0, 1]).permutation.count v
        = ([3, 3, 0, 1] : List Nat).count v) ∧
    ((ofKeysHint insertion_sort [9, 2, 9, 4] [3, 3, 0, 1]).permutation.Perm
        (List.range ([9, 2, 9, 4] : List Int).length) ↔
      ([3, 3, 0, 1] : List Nat).Perm (List.range ([9, 2, 9, 4] : List Int).length))) :=
  ⟨by decide, by decide,
    C20_permutation_reorders_hint insertion_sort [9, 2, 9, 4] [3, 3, 0, 1]
      (by decide) (by decide)⟩

/-! ## Lemmas on `fixed_t` arithmetic -/

theorem two_pow_bits (bits : Nat) (h : 1 ≤ bits) :
    ((2 ^ bits : Nat) : Int) = 2 * ((2 ^ (bits - 1) : Nat) : Int) := by
  obtain ⟨b, rfl⟩ : ∃ b, bits = b + 1 := ⟨bits - 1, by omega⟩
  simp only [Nat.add_sub_cancel, pow_succ]
  push_cast
  ring

theorem fixed_wrap_congr (bits : Nat) (x q : Int) :
    fixed_wrap bits (x + ((2 ^ bits : Nat) : Int) * q) = fixed_wrap bits x := by
  unfold fixed_wrap
  rw [show x + ((2 ^ bits : Nat) : Int) * q + ((2 ^ (bits - 1) : Nat) : Int)
      = x + ((2 ^ (bits - 1) : Nat) : Int) + ((2 ^ bits : Nat) : Int) * q by ring,
    Int.add_mul_emod_self_left]

theorem fixed_wrap_eq_sub (bits : Nat) (x : Int) :
    ∃ q : Int, fixed_wrap bits x = x + ((2 ^ bits : Nat) : Int) * q := by
  refine ⟨-((x + ((2 ^ (bits - 1) : Nat) : Int)) / ((2 ^ bits : Nat) : Int)), ?_⟩
  unfold fixed_wrap
  rw [Int.emod_def]
  ring

/-- Reducing a factor first does not change the reduced product. -/
theorem fixed_wrap_mul (bits : Nat) (a b : Int) :
    fixed_wrap bits (fixed_wrap bits a * b) = fixed_wrap bits (a * b) := by
  obtain ⟨q, hq⟩ := fixed_wrap_eq_sub bits a
  rw [hq, show (a + ((2 ^ bits : Nat) : Int) * q) * b
      = a * b + ((2 ^ bits : Nat) : Int) * (q * b) by ring, fixed_wrap_congr]

/-- A representable value is its own reduction. -/
theorem fixed_wrap_of_range (bits : Nat) (hbits : 1 ≤ bits) (x : Int)
    (h1 : fixed_min bits ≤ x) (h2 : x ≤ fixed_max bits) : fixed_wrap bits x = x := by
  unfold fixed_min at h1
  unfold fixed_max at h2
  unfold fixed_wrap
  rw [Int.emod_eq_of_lt (by omega) (by rw [two_pow_bits bits hbits]; omega)]
  omega

namespace GridSpec

/-- The loop of `compute_strides` in `fixed_t` after the iterations
`i = 1, ..., k`. -/
theorem strides_fixed_loop (bits n_dim : Nat) (shape : cell_t) (hlen : shape.length = n_dim) :
    ∀ k, ((List.range' 1 k).foldl
        (fun strides i =>
          strides.set i (fixed_wrap bits (strides.getD (i - 1) 0 * shape.getD (i - 1) 0)))
        ((List.replicate n_dim (0 : Int)).set 0 (fixed_wrap bits 1))).length = n_dim ∧
      ∀ d, d ≤ k → d < n_dim →
        ((List.range' 1 k).foldl
          (fun strides i =>
            strides.set i (fixed_wrap bits (strides.getD (i - 1) 0 * shape.getD (i - 1) 0)))
          ((List.replicate n_dim (0 : Int)).set 0 (fixed_wrap bits 1))).getD d 0
          = fixed_wrap bits (shape.take d).prod := by
  intro k
  induction k with
  | zero =>
    refine ⟨by simp, ?_⟩
    intro d hd hdn
    have hd0 : d = 0 := by omega
    subst hd0
    simp [getD_set_eq, hdn]
  | succ k ih =>
    obtain ⟨ihl, ihv⟩ := ih
    rw [List.range'_concat, List.foldl_append]
    simp only [List.foldl_cons, List.foldl_nil, Nat.one_mul, Nat.add_sub_cancel_left]
    refine ⟨by rw [List.length_set]; exact ihl, ?_⟩
    intro d hd hdn
    rw [getD_set_eq]
    by_cases hdk : 1 + k = d
    · subst hdk
      rw [if_pos ⟨rfl, by omega⟩, ihv k (by omega) (by omega)]
      have hk : k < shape.length := by omega
      rw [show 1 + k = k + 1 by omega, List.prod_take_succ shape k hk,
        List.getD_eq_getElem shape 0 hk, fixed_wrap_mul]
    · rw [if_neg (fun h => hdk h.1)]
      exact ihv d (by omega) hdn

theorem compute_strides_fixed_length (bits n_dim : Nat) (shape : cell_t)
    (hlen : shape.length = n_dim) :
    (compute_strides_fixed bits n_dim shape).length = n_dim :=
  (strides_fixed_loop bits n_dim shape hlen (n_dim - 1)).1

theorem compute_strides_fixed_getD (bits n_dim : Nat) (shape : cell_t)
    (hlen : shape.length = n_dim) {d : Nat} (hd : d < n_dim) :
    (compute_strides_fixed bits n_dim shape).getD d 0 = fixed_wrap bits (shape.take d).prod :=
  (strides_fixed_loop bits n_dim shape hlen (n_dim - 1)).2 d (by omega) hd

/-- Where every product of leading shape entries is representable, the
strides in `fixed_t` are the exact strides. -/
theorem compute_strides_fixed_eq_exact (bits n_dim : Nat) (shape : cell_t) (hbits : 1 ≤ bits)
    (hlen : shape.length = n_dim)
    (hfit : ∀ d, d < n_dim →
      fixed_min bits ≤ (shape.take d).prod ∧ (shape.take d).prod ≤ fixed_max bits) :
    compute_strides_fixed bits n_dim shape = compute_strides n_dim shape := by
  apply List.ext_getElem
  · rw [compute_strides_fixed_length bits n_dim shape hlen, compute_strides_length n_dim shape hlen]
  · intro d h1 h2
    rw [compute_strides_fixed_length bits n_dim shape hlen] at h1
    rw [← List.getD_eq_getElem _ 0, ← List.getD_eq_getElem _ 0,
      compute_strides_fixed_getD bits n_dim shape hlen h1, compute_strides_getD n_dim shape hlen h1]
    exact fixed_wrap_of_range bits hbits _ (hfit d h1).1 (hfit d h1).2

end GridSpec

/-- In `fixed_t` of 32 bits the conversion of `10^10` is undefined. -/
theorem cast_fixed_out_of_range :
    Real_t.cast_fixed 32 (Real_t.fin 10000000000) = none := by
  have hf : ⌊(10000000000 : ℚ)⌋ = 10000000000 := by
    rw [Int.floor_eq_iff]; norm_num
  have ht : (if (0 : ℚ) ≤ 10000000000 then ⌊(10000000000 : ℚ)⌋ else ⌈(10000000000 : ℚ)⌉)
      = 10000000000 := by
    rw [if_pos (by norm_num), hf]
  simp only [Real_t.cast_fixed, ht]
  rw [if_neg]
  intro h
  have h2 := h.2
  unfold fixed_max at h2
  norm_num at h2

/-- Inside the representable range the conversion to `fixed_t` is defined and
is the exact truncation. -/
theorem cast_fixed_of_range (bits : Nat) (q : ℚ)
    (h1 : ((fixed_min bits : Int) : ℚ) - 1 < q) (h2 : q < ((fixed_max bits : Int) : ℚ) + 1) :
    Real_t.cast_fixed bits (Real_t.fin q) = some (Real_t.cast (Real_t.fin q)) := by
  have hpow : (1 : Int) ≤ ((2 ^ (bits - 1) : Nat) : Int) := by
    exact_mod_cast (Nat.one_le_two_pow : 1 ≤ 2 ^ (bits - 1))
  have hmin : fixed_min bits ≤ 0 := by unfold fixed_min; linarith
  have hmax : 0 ≤ fixed_max bits := by unfold fixed_max; linarith
  simp only [Real_t.cast_fixed, Real_t.cast]
  rw [if_pos]
  by_cases h0 : 0 ≤ q
  · simp only [if_pos h0]
    constructor
    · exact le_trans hmin (Int.floor_nonneg.mpr h0)
    · rw [← Int.lt_add_one_iff, Int.floor_lt]; push_cast; exact h2
  · simp only [if_neg h0]
    constructor
    · rw [← Int.sub_one_lt_iff, Int.lt_ceil]; push_cast; exact h1
    · exact le_trans (Int.ceil_le.mpr (by push_cast; exact le_of_lt (not_le.mp h0))) hmax

theorem cell_from_local_position_fixed_of_range (bits : Nat) (G : GridSpec) :
    ∀ (qs : List ℚ),
      (∀ q ∈ qs, ((fixed_min bits : Int) : ℚ) - 1 < q ∧ q < ((fixed_max bits : Int) : ℚ) + 1) →
      G.cell_from_local_position_fixed bits (point qs)
        = some (G.cell_from_local_position (point qs))
  | [], _ => rfl
  | q :: qs, h => by
    have ih := cell_from_local_position_fixed_of_range bits G qs
      (fun x hx => h x (List.mem_cons_of_mem _ hx))
    have hq := h q (List.mem_cons_self _ _)
    simp only [GridSpec.cell_from_local_position_fixed, GridSpec.cell_from_local_position, point,
      List.map_cons, List.mapM_cons] at ih ⊢
    rw [cast_fixed_of_range bits q hq.1 hq.2, ih]
    rfl

/-! ## Claims on `fixed_t` arithmetic -/

/-- C15, amended: `cell_from_local_position` truncates toward zero. For a
local position whose coordinates truncate to values representable in
`fixed_t` (`fixed_min - 1 < v[d] < fixed_max + 1` on every axis) the conversion
is defined, and on a non-negative coordinate the cell is `k` exactly when
`k <= v[d] < k + 1`, on a negative coordinate exactly when
`k - 1 < v[d] <= k`. -/
theorem C15_truncation_toward_zero_in_fixed_t (bits : Nat) (G : GridSpec) (qs : List ℚ)
    (hrange : ∀ q ∈ qs,
      ((fixed_min bits : Int) : ℚ) - 1 < q ∧ q < ((fixed_max bits : Int) : ℚ) + 1)
    (d : Nat) (hd : d < qs.length) (k : Int) :
    ∃ cell : cell_t,
      G.cell_from_local_position_fixed bits (point qs) = some cell ∧
      cell = G.cell_from_local_position (point qs) ∧
      (cell[d]? = some k ↔
        (0 ≤ qs.getD d 0 ∧ (k : ℚ) ≤ qs.getD d 0 ∧ qs.getD d 0 < (k : ℚ) + 1) ∨
        (qs.getD d 0 < 0 ∧ (k : ℚ) - 1 < qs.getD d 0 ∧ qs.getD d 0 ≤ (k : ℚ))) :=
  ⟨_, cell_from_local_position_fixed_of_range bits G qs hrange, rfl,
    cell_from_local_position_truncation G qs d hd k⟩

theorem C15_truncation_toward_zero_in_fixed_t_witness :
    ((∀ q ∈ ([-1 / 2, 5 / 2] : List ℚ),
        ((fixed_min 32 : Int) : ℚ) - 1 < q ∧ q < ((fixed_max 32 : Int) : ℚ) + 1) ∧
      (0 : Nat) < ([-1 / 2, 5 / 2] : List ℚ).length) ∧
    ∃ cell : cell_t,
      cell_from_local_position_fixed 32 (GridSpec.mk 2 (Real_t.fin 1) ⟨[], []⟩ [1, 1] [1, 1])
        (point [-1 / 2, 5 / 2]) = some cell ∧
      cell = cell_from_local_position (GridSpec.mk 2 (Real_t.fin 1) ⟨[], []⟩ [1, 1] [1, 1])
        (point [-1 / 2, 5 / 2]) ∧
      (cell[0]? = some 0 ↔
        (0 ≤ ([-1 / 2, 5 / 2] : List ℚ).getD 0 0 ∧
          ((0 : Int) : ℚ) ≤ ([-1 / 2, 5 / 2] : List ℚ).getD 0 0 ∧
          ([-1 / 2, 5 / 2] : List ℚ).getD 0 0 < ((0 : Int) : ℚ) + 1) ∨
        (([-1 / 2, 5 / 2] : List ℚ).getD 0 0 < 0 ∧
          ((0 : Int) : ℚ) - 1 < ([-1 / 2, 5 / 2] : List ℚ).getD 0 0 ∧
          ([-1 / 2, 5 / 2] : List ℚ).getD 0 0 ≤ ((0 : Int) : ℚ))) :=
  ⟨⟨by simp [fixed_min, fixed_max]; norm_num, by decide⟩,
    C15_truncation_toward_zero_in_fixed_t 32 (GridSpec.mk 2 (Real_t.fin 1) ⟨[], []⟩ [1, 1] [1, 1])
      [-1 / 2, 5 / 2] (by simp [fixed_min, fixed_max]; norm_num) 0 (by decide) 0⟩

end Collision
